import Mathlib

/-!
# AVL tree (`avlbst.h`) and the equal-paths predicate (`equal-paths.cpp`)

The C++ tree is a pointer structure with parent back-references.  It is embedded
as an immutable tree together with *locations*: a pointer to a node is the
subtree rooted at that node plus the chain of its ancestors (nearest first),
each ancestor recorded with the side on which the walk came from and its other
child.  Following `getParent()` is dropping the head of that chain; writing a
child slot of the parent is plugging a subtree into the head frame.

Heights are C `int`s; they are modelled as natural numbers (a height of `2^31`
needs more nodes than fit in memory).  The stored balance is an `int8_t` and the
narrowing conversions are modelled by `toInt8`.
-/

namespace AVL

/-- Conversion of an `int` to `int8_t` (two's complement wrap-around). -/
def toInt8 (x : Int) : Int := (x + 128) % 256 - 128

/-- An `AVLNode` with its subtrees; `nil` is the null pointer. -/
inductive Tree (K V : Type) where
  | nil : Tree K V
  | node (left : Tree K V) (key : K) (value : V) (balance : Int) (right : Tree K V) : Tree K V
  deriving DecidableEq, Repr

/-- Which child slot of a parent a node occupies. -/
inductive Side where
  | left : Side
  | right : Side
  deriving DecidableEq, Repr

/-- An ancestor seen from below: its own fields, the side the walk came from,
and the subtree hanging on the other side. -/
structure Frame (K V : Type) where
  side : Side
  key : K
  value : V
  balance : Int
  sibling : Tree K V
  deriving DecidableEq, Repr

/-- A node pointer: the subtree rooted at the node and its ancestors, nearest first. -/
abbrev Loc (K V : Type) := Tree K V × List (Frame K V)

variable {K V : Type}

/-- The null-pointer test. -/
def Tree.isNil : Tree K V → Bool
  | Tree.nil => true
  | Tree.node _ _ _ _ _ => false

/-- Write `t` into the child slot of the ancestor `f` the walk came from. -/
def Frame.plug (f : Frame K V) (t : Tree K V) : Tree K V :=
  match f.side with
  | Side.left => Tree.node t f.key f.value f.balance f.sibling
  | Side.right => Tree.node f.sibling f.key f.value f.balance t

/-- The whole tree a location lives in: the subtree put back under all its ancestors. -/
def plugAll : Tree K V → List (Frame K V) → Tree K V
  | t, [] => t
  | t, f :: fs => plugAll (f.plug t) fs

/-- Embedding of `AVLTree::heightNode`. -/
def heightNode : Tree K V → Nat
  | Tree.nil => 0
  | Tree.node l _ _ _ r => 1 + max (heightNode l) (heightNode r)

/-- Embedding of `AVLTree::balanceOf`: height(left) - height(right), returned as `int8_t`. -/
def balanceOf : Tree K V → Int
  | Tree.nil => 0
  | Tree.node l _ _ _ r => toInt8 ((heightNode l : Int) - (heightNode r : Int))

/-- Embedding of `AVLTree::fixHeightAndBalance`: recompute every stored balance of the subtree,
returning the updated subtree and its height. -/
def fixHeightAndBalance : Tree K V → Tree K V × Nat
  | Tree.nil => (Tree.nil, 0)
  | Tree.node l k v _ r =>
    let hl := fixHeightAndBalance l
    let hr := fixHeightAndBalance r
    (Tree.node hl.1 k v (toInt8 ((hl.2 : Int) - (hr.2 : Int))) hr.1,
      1 + (if hl.2 > hr.2 then hl.2 else hr.2))

/-- Embedding of `AVLTree::rotateLeft`, as the subtree that ends up in the slot of `node`
(the slot is the parent's child slot, or the root). -/
def rotateLeft : Tree K V → Tree K V
  | Tree.nil => Tree.nil
  | Tree.node a k v b Tree.nil => Tree.node a k v b Tree.nil
  | Tree.node a k v b (Tree.node bl rk rv rb c) =>
    Tree.node (Tree.node a k v b bl) rk rv rb c

/-- Embedding of `AVLTree::rotateRight`, as the subtree that ends up in the slot of `node`. -/
def rotateRight : Tree K V → Tree K V
  | Tree.nil => Tree.nil
  | Tree.node Tree.nil k v b c => Tree.node Tree.nil k v b c
  | Tree.node (Tree.node a lk lv lb br) k v b c =>
    Tree.node a lk lv lb (Tree.node br k v b c)

/-- Embedding of `AVLTree::rebalanceNode`: the subtree that ends up in the slot of `node`. -/
def rebalanceNode : Tree K V → Tree K V
  | Tree.nil => Tree.nil
  | Tree.node l k v b r =>
    if b > 1 then
      rotateRight (Tree.node (if balanceOf l < 0 then rotateLeft l else l) k v b r)
    else if b < -1 then
      rotateLeft (Tree.node l k v b (if balanceOf r > 0 then rotateRight r else r))
    else Tree.node l k v b r

/-- One iteration of the loop of `AVLTree::rebalanceUpwards` at `curr`: store the
recomputed balance, and when it is outside -1..1 rotate and recompute the
balances of the rotated subtree.  The result is the subtree now in `curr`'s slot. -/
def rebalanceStep : Tree K V → Tree K V
  | Tree.nil => Tree.nil
  | Tree.node l k v b r =>
    let bal := balanceOf (Tree.node l k v b r)
    if bal > 1 ∨ bal < -1 then
      (fixHeightAndBalance (rebalanceNode (Tree.node l k v bal r))).1
    else Tree.node l k v bal r

/-- Embedding of `AVLTree::rebalanceUpwards`: `path` is the chain `start`, parent of `start`, ...,
root, and `t` is the subtree in the child slot of `start` the caller just wrote.
With an empty chain (`start == nullptr`) the loop body never runs. -/
def rebalanceUpwards : Tree K V → List (Frame K V) → Tree K V
  | t, [] => t
  | t, f :: fs => rebalanceUpwards (rebalanceStep (f.plug t)) fs

section Ordered
variable [LinearOrder K]

/-- The descent loop of `AVLTree::insert` from `curr`, followed by the attachment
of the new node and the upward walk. -/
def insertLoop (k : K) (v : V) : Tree K V → List (Frame K V) → Tree K V
  | Tree.nil, path => rebalanceUpwards (Tree.node Tree.nil k v 0 Tree.nil) path
  | Tree.node l k1 v1 b r, path =>
    if k = k1 then plugAll (Tree.node l k1 v b r) path
    else if k < k1 then insertLoop k v l (⟨Side.left, k1, v1, b, r⟩ :: path)
    else insertLoop k v r (⟨Side.right, k1, v1, b, l⟩ :: path)

/-- Embedding of `AVLTree::insert`. -/
def insert (t : Tree K V) (new_item : K × V) : Tree K V :=
  match t with
  | Tree.nil => Tree.node Tree.nil new_item.1 new_item.2 0 Tree.nil
  | Tree.node l k1 v1 b r => insertLoop new_item.1 new_item.2 (Tree.node l k1 v1 b r) []

/-- Modelled from the spec: `BinarySearchTree::internalFind` of `bst.h`, which is
not among the sources; the spec calls it "the BST lookup".  It descends from
`curr` comparing keys and yields the location of the node holding `k`. -/
def internalFind (k : K) : Tree K V → List (Frame K V) → Option (Loc K V)
  | Tree.nil, _ => none
  | Tree.node l k1 v1 b r, path =>
    if k = k1 then some (Tree.node l k1 v1 b r, path)
    else if k < k1 then internalFind k l (⟨Side.left, k1, v1, b, r⟩ :: path)
    else internalFind k r (⟨Side.right, k1, v1, b, l⟩ :: path)

/-- Modelled from the spec: `find` of `bst.h` ("returns an accessor to the mapped
value or an absent sentinel"), as the value stored at the node `internalFind` yields. -/
def find (t : Tree K V) (k : K) : Option V :=
  match internalFind k t [] with
  | some (Tree.node _ _ v _ _, _) => some v
  | _ => none

end Ordered

/-- The rightmost node below `curr`, as a location relative to `path`. -/
def rightmost : Tree K V → List (Frame K V) → Option (Loc K V)
  | Tree.nil, _ => none
  | Tree.node l k v b Tree.nil, path => some (Tree.node l k v b Tree.nil, path)
  | Tree.node l k v b (Tree.node rl rk rv rb rr), path =>
    rightmost (Tree.node rl rk rv rb rr) (⟨Side.right, k, v, b, l⟩ :: path)

/-- Modelled from the spec: `BinarySearchTree::predecessor` of `bst.h` for a node
with a left subtree ("the rightmost node of that subtree").  The location is
relative to the node: its chain of ancestors stops below the node. -/
def predecessor : Tree K V → Option (Loc K V)
  | Tree.nil => none
  | Tree.node l _ _ _ _ => rightmost l []

/-- Modelled from the spec: `BinarySearchTree::nodeSwap` of `bst.h` on a node `n`
and a node `p` of its left subtree ("exchanges two nodes' positions in the tree
while preserving their identities and payloads"): every field of a node,
its balance included, travels with the node.  The result is the location of `n`
afterwards, which is the old position of `p`; the node `p` is now the ancestor
of `n` at index `p.2.length` of the chain, where `n` used to be. -/
def bstNodeSwap (n : Loc K V) (p : Loc K V) : Loc K V :=
  match n.1, p.1 with
  | Tree.node _ k v b r, Tree.node pl pk pv pb pr =>
    (Tree.node pl k v b pr, p.2 ++ ⟨Side.left, pk, pv, pb, r⟩ :: n.2)
  | _, _ => n

/-- Exchange the stored balance of the node at a location with the stored balance
of its ancestor at index `i` (`getBalance` and `setBalance` on both nodes). -/
def exchangeBalance (n : Loc K V) (i : Nat) : Loc K V :=
  match n.1, n.2.get? i with
  | Tree.node l k v b r, some f =>
    (Tree.node l k v f.balance r, n.2.set i ⟨f.side, f.key, f.value, b, f.sibling⟩)
  | _, _ => n

/-- Embedding of `AVLTree::nodeSwap` for `n1 = n` and `n2 = p`, a node of the left subtree of
`n`: the base-class swap, then the two balances exchanged, so that a balance
stays with its position.  The result is the location of `n` afterwards. -/
def nodeSwap (n : Loc K V) (p : Loc K V) : Loc K V :=
  exchangeBalance (bstNodeSwap n p) p.2.length

section Ordered
variable [LinearOrder K]

/-- Embedding of `AVLTree::remove`. -/
def remove (t : Tree K V) (key : K) : Tree K V :=
  match internalFind key t [] with
  | none => t
  | some (Tree.nil, _) => t
  | some (Tree.node l k v b r, path) =>
    let swapped : Option (Loc K V) :=
      if !l.isNil && !r.isNil then
        match predecessor (Tree.node l k v b r) with
        | none => none
        | some pred => some (nodeSwap (Tree.node l k v b r, path) pred)
      else some (Tree.node l k v b r, path)
    match swapped with
    | none => t
    | some (Tree.nil, _) => t
    | some (Tree.node nl _ _ _ nr, parents) =>
      rebalanceUpwards (if !nl.isNil then nl else nr) parents

end Ordered

/-! ## Observations and invariants of the specification -/

/-- In-order traversal: the (key, value) pairs from left to right. -/
def inorder : Tree K V → List (K × V)
  | Tree.nil => []
  | Tree.node l k v _ r => inorder l ++ (k, v) :: inorder r

/-- The keys in in-order. -/
def keys (t : Tree K V) : List K := (inorder t).map Prod.fst

/-- Number of nodes. -/
def size : Tree K V → Nat
  | Tree.nil => 0
  | Tree.node l _ _ _ r => size l + 1 + size r

/-- Balance invariant: at every node height(left) - height(right) is within -1..1
and the stored balance equals that difference. -/
def Balanced : Tree K V → Prop
  | Tree.nil => True
  | Tree.node l _ _ b r =>
    Balanced l ∧ Balanced r ∧
      (-1 ≤ (heightNode l : Int) - (heightNode r : Int) ∧
        (heightNode l : Int) - (heightNode r : Int) ≤ 1) ∧
      b = (heightNode l : Int) - (heightNode r : Int)

/-- The shape half of the balance invariant: heights of siblings differ by at most one. -/
def HeightBalanced : Tree K V → Prop
  | Tree.nil => True
  | Tree.node l _ _ _ r =>
    HeightBalanced l ∧ HeightBalanced r ∧
      -1 ≤ (heightNode l : Int) - (heightNode r : Int) ∧
      (heightNode l : Int) - (heightNode r : Int) ≤ 1

/-- Decision procedure for the balance invariant. -/
instance Balanced.decide : (t : Tree K V) → Decidable (Balanced t)
  | Tree.nil => isTrue trivial
  | Tree.node l _ _ b r =>
    have := Balanced.decide l
    have := Balanced.decide r
    inferInstanceAs (Decidable (Balanced l ∧ Balanced r ∧
      (-1 ≤ (heightNode l : Int) - (heightNode r : Int) ∧
        (heightNode l : Int) - (heightNode r : Int) ≤ 1) ∧
      b = (heightNode l : Int) - (heightNode r : Int)))

/-- The chain of ancestors fits a subtree of height `h` in its hole: every sibling
is balanced, every ancestor satisfies the balance invariant with a hole of that height. -/
def CtxBalanced : List (Frame K V) → Nat → Prop
  | [], _ => True
  | f :: fs, h =>
    Balanced f.sibling ∧
      (-1 ≤ (h : Int) - (heightNode f.sibling : Int) ∧
        (h : Int) - (heightNode f.sibling : Int) ≤ 1) ∧
      (f.balance = match f.side with
        | Side.left => (h : Int) - (heightNode f.sibling : Int)
        | Side.right => (heightNode f.sibling : Int) - (h : Int)) ∧
      CtxBalanced fs (1 + max h (heightNode f.sibling))

/-- The pairs that precede the hole of a chain of ancestors in in-order. -/
def ctxBefore : List (Frame K V) → List (K × V)
  | [] => []
  | f :: fs =>
    ctxBefore fs ++ (match f.side with
      | Side.left => []
      | Side.right => inorder f.sibling ++ [(f.key, f.value)])

/-- The pairs that follow the hole of a chain of ancestors in in-order. -/
def ctxAfter : List (Frame K V) → List (K × V)
  | [] => []
  | f :: fs =>
    (match f.side with
      | Side.left => (f.key, f.value) :: inorder f.sibling
      | Side.right => []) ++ ctxAfter fs

section Ordered
variable [LinearOrder K]

/-- BST order: the in-order traversal lists the keys in strictly ascending order. -/
def BST (t : Tree K V) : Prop := (keys t).Sorted (· < ·)

/-- Decision procedure for BST order. -/
instance BST.decide (t : Tree K V) : Decidable (BST t) :=
  inferInstanceAs (Decidable ((keys t).Sorted (· < ·)))

/-- The AVL invariants: BST order, balance bound and balance accuracy. -/
def Valid (t : Tree K V) : Prop := BST t ∧ Balanced t

/-- Decision procedure for the AVL invariants. -/
instance Valid.decide (t : Tree K V) : Decidable (Valid t) :=
  inferInstanceAs (Decidable (BST t ∧ Balanced t))

/-- Insertion of a pair into an association list sorted by key, overwriting the
value when the key is there: what `insert` does to the in-order traversal. -/
def insertList (k : K) (v : V) : List (K × V) → List (K × V)
  | [] => [(k, v)]
  | (a, w) :: xs =>
    if k = a then (k, v) :: xs
    else if k < a then (k, v) :: (a, w) :: xs
    else (a, w) :: insertList k v xs

/-- A public operation of the tree. -/
inductive Op (K V : Type) where
  | insert (new_item : K × V) : Op K V
  | remove (key : K) : Op K V

/-- Apply one public operation. -/
def applyOp (t : Tree K V) : Op K V → Tree K V
  | Op.insert new_item => insert t new_item
  | Op.remove key => remove t key

/-- The tree reached from the empty tree by a sequence of operations. -/
def run (ops : List (Op K V)) : Tree K V := ops.foldl applyOp Tree.nil

end Ordered

/-- The key of the node a pointer refers to (nothing for the null pointer); a
node is identified by its key. -/
def rootKey : Tree K V → Option K
  | Tree.nil => none
  | Tree.node _ k _ _ _ => some k

section Ordered
variable [LinearOrder K]

/-- The tree with the value of the node holding key `k` set to `v` (`setValue`):
shape, keys, stored balances and all other values are those of the input. -/
def overwrite (k : K) (v : V) : Tree K V → Tree K V
  | Tree.nil => Tree.nil
  | Tree.node l k1 v1 b r =>
    Tree.node (overwrite k v l) k1 (if k1 = k then v else v1) b (overwrite k v r)

end Ordered

/-- The stored balance of a node (`getBalance`); 0 stands for the null pointer. -/
def storedBalance : Tree K V → Int
  | Tree.nil => 0
  | Tree.node _ _ _ b _ => b

/-- The balance factor of the specification: height(left) - height(right) as an
integer, without narrowing; 0 for the null pointer. -/
def balanceFactor : Tree K V → Int
  | Tree.nil => 0
  | Tree.node l _ _ _ r => (heightNode l : Int) - (heightNode r : Int)

/-- Balance accuracy at one node: the stored balance, an `int8_t`, is the balance
factor of the node. -/
def BalanceAccurate (t : Tree K V) : Prop :=
  storedBalance t = balanceFactor t ∧ -128 ≤ storedBalance t ∧ storedBalance t ≤ 127

/-- Decision procedure for balance accuracy at one node. -/
instance BalanceAccurate.decide (t : Tree K V) : Decidable (BalanceAccurate t) :=
  inferInstanceAs (Decidable (storedBalance t = balanceFactor t ∧ -128 ≤ storedBalance t ∧
    storedBalance t ≤ 127))

/-- The (key, value) of the rightmost node of a subtree: for the left subtree
of a node, the payload of its in-order predecessor. -/
def maxPair : Tree K V → Option (K × V)
  | Tree.nil => none
  | Tree.node _ k v _ Tree.nil => some (k, v)
  | Tree.node _ _ _ _ (Tree.node rl rk rv rb rr) => maxPair (Tree.node rl rk rv rb rr)

/-- Removal by predecessor in the words of the specification, inside the left
subtree: the rightmost node is spliced out (its left child takes its place) and
the loop body of the upward walk runs at every node above it, bottom-up. -/
def spliceMax : Tree K V → Tree K V
  | Tree.nil => Tree.nil
  | Tree.node l _ _ _ Tree.nil => l
  | Tree.node l k v b (Tree.node rl rk rv rb rr) =>
    rebalanceStep (Tree.node l k v b (spliceMax (Tree.node rl rk rv rb rr)))

section Ordered
variable [LinearOrder K]

/-- Whether the node holding `key` has two children. -/
def hasTwoChildren (key : K) : Tree K V → Bool
  | Tree.nil => false
  | Tree.node l k _ _ r =>
    if key = k then !l.isNil && !r.isNil
    else if key < k then hasTwoChildren key l
    else hasTwoChildren key r

/-- Removal of a key whose node has two children, in the words of the
specification: the payload of the rightmost node of the left subtree is put at
the position of the key (the balance stored there stays), the old node of the
predecessor is spliced out, and the loop body of the upward walk runs at every
position from the old parent of the predecessor up to the root. -/
def removeViaPredecessor (key : K) : Tree K V → Tree K V
  | Tree.nil => Tree.nil
  | Tree.node l k v b r =>
    if key = k then
      match maxPair l with
      | some (pk, pv) => rebalanceStep (Tree.node (spliceMax l) pk pv b r)
      | none => Tree.node l k v b r
    else if key < k then rebalanceStep (Tree.node (removeViaPredecessor key l) k v b r)
    else rebalanceStep (Tree.node l k v b (removeViaPredecessor key r))

end Ordered

/-- The upward walk of `rebalanceUpwards`, instrumented: one entry for every
loop iteration that calls `rebalanceNode` (the recomputed balance is outside
-1..1), holding the height the subtree at that position had before the
operation and the height of the subtree rooted at the returned pivot after the
fix-up.  `h0` is the height, before the operation, of the subtree in the slot
where `t` has been written. -/
def rebalanceLog : Tree K V → Nat → List (Frame K V) → List (Nat × Nat)
  | _, _, [] => []
  | t, h0, f :: fs =>
    (if balanceOf (f.plug t) > 1 ∨ balanceOf (f.plug t) < -1 then
        [(1 + max h0 (heightNode f.sibling), heightNode (rebalanceStep (f.plug t)))]
      else []) ++
      rebalanceLog (rebalanceStep (f.plug t)) (1 + max h0 (heightNode f.sibling)) fs

section Ordered
variable [LinearOrder K]

/-- The calls of `rebalanceNode` made by `insert`: the descent of `insertLoop`,
then the instrumented walk started where the new node is attached (an absent
subtree, of height 0, is replaced by the new node). -/
def insertLog (k : K) (v : V) : Tree K V → List (Frame K V) → List (Nat × Nat)
  | Tree.nil, path => rebalanceLog (Tree.node Tree.nil k v 0 Tree.nil) 0 path
  | Tree.node l k1 v1 b r, path =>
    if k = k1 then []
    else if k < k1 then insertLog k v l (⟨Side.left, k1, v1, b, r⟩ :: path)
    else insertLog k v r (⟨Side.right, k1, v1, b, l⟩ :: path)

end Ordered

/-! ## Parent back-references

A second embedding of the same code that keeps the `parent_` field of every
node.  Child pointers stay structural; a parent reference is stored as the key
of the node referred to (a node never changes its key, and keys are unique in
a search tree), and every `setParent` call of the source is a field update. -/

namespace Linked

/-- An `AVLNode` with its subtrees and its stored parent reference. -/
inductive LTree (K V : Type) where
  | nil : LTree K V
  | node (left : LTree K V) (key : K) (value : V) (balance : Int) (parent : Option K)
      (right : LTree K V) : LTree K V
  deriving DecidableEq, Repr

/-- An ancestor seen from below, with its stored parent reference. -/
structure LFrame (K V : Type) where
  side : Side
  key : K
  value : V
  balance : Int
  parent : Option K
  sibling : LTree K V
  deriving DecidableEq, Repr

/-- A node pointer: the subtree rooted at the node and its ancestors, nearest first. -/
abbrev LLoc (K V : Type) := LTree K V × List (LFrame K V)

/-- The null-pointer test. -/
def LTree.isNil : LTree K V → Bool
  | LTree.nil => true
  | LTree.node _ _ _ _ _ _ => false

/-- The guarded `setParent`: `if (c != nullptr) c->setParent(p)`. -/
def setParent : LTree K V → Option K → LTree K V
  | LTree.nil, _ => LTree.nil
  | LTree.node l k v b _ r, p => LTree.node l k v b p r

/-- The stored parent reference (`getParent`); nothing for the null pointer. -/
def getParent : LTree K V → Option K
  | LTree.nil => none
  | LTree.node _ _ _ _ p _ => p

/-- Write `t` into the child slot of the ancestor `f` (`setLeft` or `setRight`). -/
def LFrame.plug (f : LFrame K V) (t : LTree K V) : LTree K V :=
  match f.side with
  | Side.left => LTree.node t f.key f.value f.balance f.parent f.sibling
  | Side.right => LTree.node f.sibling f.key f.value f.balance f.parent t

/-- The whole tree a location lives in. -/
def plugAll : LTree K V → List (LFrame K V) → LTree K V
  | t, [] => t
  | t, f :: fs => plugAll (f.plug t) fs

/-- Embedding of `AVLTree::heightNode`. -/
def heightNode : LTree K V → Nat
  | LTree.nil => 0
  | LTree.node l _ _ _ _ r => 1 + max (heightNode l) (heightNode r)

/-- Embedding of `AVLTree::balanceOf`. -/
def balanceOf : LTree K V → Int
  | LTree.nil => 0
  | LTree.node l _ _ _ _ r => toInt8 ((heightNode l : Int) - (heightNode r : Int))

/-- Embedding of `AVLTree::fixHeightAndBalance`; it writes balances only. -/
def fixHeightAndBalance : LTree K V → LTree K V × Nat
  | LTree.nil => (LTree.nil, 0)
  | LTree.node l k v _ p r =>
    let hl := fixHeightAndBalance l
    let hr := fixHeightAndBalance r
    (LTree.node hl.1 k v (toInt8 ((hl.2 : Int) - (hr.2 : Int))) p hr.1,
      1 + (if hl.2 > hr.2 then hl.2 else hr.2))

/-- Embedding of `AVLTree::rotateLeft` with its three `setParent` calls: the right
child takes the stored parent of `node`, `node` gets the right child as parent,
and the transplanted subtree, when present, gets `node` as parent. -/
def rotateLeft : LTree K V → LTree K V
  | LTree.nil => LTree.nil
  | LTree.node a k v b p LTree.nil => LTree.node a k v b p LTree.nil
  | LTree.node a k v b p (LTree.node bl rk rv rb _ c) =>
    LTree.node (LTree.node a k v b (some rk) (setParent bl (some k))) rk rv rb p c

/-- Embedding of `AVLTree::rotateRight` with its three `setParent` calls. -/
def rotateRight : LTree K V → LTree K V
  | LTree.nil => LTree.nil
  | LTree.node LTree.nil k v b p c => LTree.node LTree.nil k v b p c
  | LTree.node (LTree.node a lk lv lb _ br) k v b p c =>
    LTree.node a lk lv lb p (LTree.node (setParent br (some k)) k v b (some lk) c)

/-- Embedding of `AVLTree::rebalanceNode`. -/
def rebalanceNode : LTree K V → LTree K V
  | LTree.nil => LTree.nil
  | LTree.node l k v b p r =>
    if b > 1 then
      rotateRight (LTree.node (if balanceOf l < 0 then rotateLeft l else l) k v b p r)
    else if b < -1 then
      rotateLeft (LTree.node l k v b p (if balanceOf r > 0 then rotateRight r else r))
    else LTree.node l k v b p r

/-- One iteration of the loop of `AVLTree::rebalanceUpwards`. -/
def rebalanceStep : LTree K V → LTree K V
  | LTree.nil => LTree.nil
  | LTree.node l k v b p r =>
    let bal := balanceOf (LTree.node l k v b p r)
    if bal > 1 ∨ bal < -1 then
      (fixHeightAndBalance (rebalanceNode (LTree.node l k v bal p r))).1
    else LTree.node l k v bal p r

/-- Embedding of `AVLTree::rebalanceUpwards`: the walk over the chain of ancestors. -/
def rebalanceUpwards : LTree K V → List (LFrame K V) → LTree K V
  | t, [] => t
  | t, f :: fs => rebalanceUpwards (rebalanceStep (f.plug t)) fs

/-- The node a subtree written at the head of the chain hangs under, as a
reference: the nearest ancestor, or `top` when the chain is empty. -/
def holeParent (top : Option K) : List (LFrame K V) → Option K
  | [] => top
  | f :: _ => some f.key

section Ordered
variable [LinearOrder K]

/-- The descent loop of `AVLTree::insert`; the new node is constructed with the
last visited node as parent. -/
def insertLoop (k : K) (v : V) : LTree K V → List (LFrame K V) → LTree K V
  | LTree.nil, path =>
    rebalanceUpwards (LTree.node LTree.nil k v 0 (holeParent none path) LTree.nil) path
  | LTree.node l k1 v1 b p r, path =>
    if k = k1 then plugAll (LTree.node l k1 v b p r) path
    else if k < k1 then insertLoop k v l (⟨Side.left, k1, v1, b, p, r⟩ :: path)
    else insertLoop k v r (⟨Side.right, k1, v1, b, p, l⟩ :: path)

/-- Embedding of `AVLTree::insert`; the first node is constructed with a null parent. -/
def insert (t : LTree K V) (new_item : K × V) : LTree K V :=
  match t with
  | LTree.nil => LTree.node LTree.nil new_item.1 new_item.2 0 none LTree.nil
  | LTree.node l k1 v1 b p r =>
    insertLoop new_item.1 new_item.2 (LTree.node l k1 v1 b p r) []

/-- Modelled from the spec: `BinarySearchTree::internalFind` of `bst.h` ("the BST
lookup"), on trees with parent references. -/
def internalFind (k : K) : LTree K V → List (LFrame K V) → Option (LLoc K V)
  | LTree.nil, _ => none
  | LTree.node l k1 v1 b p r, path =>
    if k = k1 then some (LTree.node l k1 v1 b p r, path)
    else if k < k1 then internalFind k l (⟨Side.left, k1, v1, b, p, r⟩ :: path)
    else internalFind k r (⟨Side.right, k1, v1, b, p, l⟩ :: path)

end Ordered

/-- The rightmost node below `curr`, as a location relative to `path`. -/
def rightmost : LTree K V → List (LFrame K V) → Option (LLoc K V)
  | LTree.nil, _ => none
  | LTree.node l k v b p LTree.nil, path => some (LTree.node l k v b p LTree.nil, path)
  | LTree.node l k v b p (LTree.node rl rk rv rb rp rr), path =>
    rightmost (LTree.node rl rk rv rb rp rr) (⟨Side.right, k, v, b, p, l⟩ :: path)

/-- Modelled from the spec: `BinarySearchTree::predecessor` of `bst.h` for a node
with a left subtree ("the rightmost node of that subtree"). -/
def predecessor : LTree K V → Option (LLoc K V)
  | LTree.nil => none
  | LTree.node l _ _ _ _ _ => rightmost l []

/-- Set the stored parent of the last (topmost) node of a chain. -/
def setTopParent : List (LFrame K V) → Option K → List (LFrame K V)
  | [], _ => []
  | [f], p => [⟨f.side, f.key, f.value, f.balance, p, f.sibling⟩]
  | f :: g :: fs, p => f :: setTopParent (g :: fs) p

/-- Modelled from the spec: `BinarySearchTree::nodeSwap` of `bst.h` on a node `n`
and a node `p` of its left subtree: the two nodes exchange positions, keeping
their payloads and balances, and "all parent/child/root pointers around and
between the two nodes are rewired": `p` takes the stored parent of `n`; the
right child of `n`, and the top of its left subtree when that is not `p`,
get `p` as parent; `n` gets `p` as parent when `p` was its left child and the
old parent of `p` otherwise; the children of `p` get `n` as parent.  The
result is the location of `n` afterwards. -/
def bstNodeSwap (n : LLoc K V) (p : LLoc K V) : LLoc K V :=
  match n.1, p.1 with
  | LTree.node _ k v b par r, LTree.node pl pk pv pb ppar pr =>
    (LTree.node (setParent pl (some k)) k v b
        (match p.2 with
          | [] => some pk
          | _ :: _ => ppar)
        (setParent pr (some k)),
      setTopParent p.2 (some pk) ++ ⟨Side.left, pk, pv, pb, par, setParent r (some pk)⟩ :: n.2)
  | _, _ => n

/-- Exchange the stored balance of the node at a location with the stored balance
of its ancestor at index `i`. -/
def exchangeBalance (n : LLoc K V) (i : Nat) : LLoc K V :=
  match n.1, n.2.get? i with
  | LTree.node l k v b p r, some f =>
    (LTree.node l k v f.balance p r, n.2.set i ⟨f.side, f.key, f.value, b, f.parent, f.sibling⟩)
  | _, _ => n

/-- Embedding of `AVLTree::nodeSwap`: the base-class swap, then the balances exchanged. -/
def nodeSwap (n : LLoc K V) (p : LLoc K V) : LLoc K V :=
  exchangeBalance (bstNodeSwap n p) p.2.length

section Ordered
variable [LinearOrder K]

/-- Embedding of `AVLTree::remove`: the child of the spliced node gets the stored
parent of that node (`child->setParent(parent)`). -/
def remove (t : LTree K V) (key : K) : LTree K V :=
  match internalFind key t [] with
  | none => t
  | some (LTree.nil, _) => t
  | some (LTree.node l k v b p r, path) =>
    let swapped : Option (LLoc K V) :=
      if !l.isNil && !r.isNil then
        match predecessor (LTree.node l k v b p r) with
        | none => none
        | some pred => some (nodeSwap (LTree.node l k v b p r, path) pred)
      else some (LTree.node l k v b p r, path)
    match swapped with
    | none => t
    | some (LTree.nil, _) => t
    | some (LTree.node nl _ _ _ np nr, parents) =>
      rebalanceUpwards (setParent (if !nl.isNil then nl else nr) np) parents

end Ordered

/-- Parent-link consistency below a node referred to by `par`: the root of the
subtree stores `par` as its parent, and every node stores the node it hangs
under. -/
def ParentOK (par : Option K) : LTree K V → Prop
  | LTree.nil => True
  | LTree.node l k _ _ p r => p = par ∧ ParentOK (some k) l ∧ ParentOK (some k) r

/-- Parent-link consistency of a tree: the parent of the root is absent and every
other node stores the node whose left or right child it is. -/
def Consistent (t : LTree K V) : Prop := ParentOK none t

/-- Parent-link consistency of a chain of ancestors that ends under `top`. -/
def CtxParentOK (top : Option K) : List (LFrame K V) → Prop
  | [] => True
  | f :: fs => ParentOK (some f.key) f.sibling ∧ f.parent = holeParent top fs ∧ CtxParentOK top fs

/-- The tree without its parent references. -/
def erase : LTree K V → Tree K V
  | LTree.nil => Tree.nil
  | LTree.node l k v b _ r => Tree.node (erase l) k v b (erase r)

/-- An ancestor without its parent reference. -/
def eraseFrame (f : LFrame K V) : Frame K V :=
  ⟨f.side, f.key, f.value, f.balance, erase f.sibling⟩

end Linked

end AVL

namespace EqualPaths

/-- The `Node` of `equal-paths.h` (declared outside the sources): a key and two
child pointers; `null` is the null pointer. -/
inductive Node where
  | null : Node
  | mk (left : Node) (key : Int) (right : Node) : Node
  deriving DecidableEq, Repr

/-- The null-pointer test. -/
def Node.isNull : Node → Bool
  | Node.null => true
  | Node.mk _ _ _ => false

/-- Embedding of `dfs_node`: the result and the value of the reference parameter `firstDepth`
afterwards.  The right subtree is visited only when the left call returned true
(`&&` short-circuits).  Depths are C `int`s, modelled as unbounded integers. -/
def dfs_node : Node → Int → Int → Bool × Int
  | Node.null, _, firstDepth => (true, firstDepth)
  | Node.mk l _ r, depth, firstDepth =>
    if l.isNull && r.isNull then
      let fd := if firstDepth = -1 then depth else firstDepth
      (decide (depth = fd), fd)
    else
      let a := dfs_node l (depth + 1) firstDepth
      if a.1 then dfs_node r (depth + 1) a.2 else (false, a.2)

/-- Embedding of `equalPaths`. -/
def equalPaths (root : Node) : Bool := (dfs_node root 0 (-1)).1

/-- Depths of the leaves (nodes with no children) of a tree whose root is at depth `d`. -/
def leafDepths : Node → Nat → List Nat
  | Node.null, _ => []
  | Node.mk l _ r, d =>
    if l.isNull && r.isNull then [d] else leafDepths l (d + 1) ++ leafDepths r (d + 1)

/-- The comparison `dfs_node` performs, replayed on the list of leaf depths in
visiting order: the first leaf fixes `firstDepth` when it is still -1, and the
scan stops at the first leaf whose depth differs from it. -/
def scanLeaves : List Nat → Int → Bool × Int
  | [], firstDepth => (true, firstDepth)
  | x :: xs, firstDepth =>
    let fd := if firstDepth = -1 then (x : Int) else firstDepth
    if (x : Int) = fd then scanLeaves xs fd else (false, fd)

/-- Perfect binary tree of the given height: every internal node has two children
and all leaves are on the last level. -/
def Perfect : Node → Nat → Prop
  | Node.null, h => h = 0
  | Node.mk _ _ _, 0 => False
  | Node.mk l _ r, h + 1 => Perfect l h ∧ Perfect r h

/-- Attach a single child with key `c` to a leaf: the leaf is reached from the
root by the turns of `path` (`true` is left), and the child goes to its left
slot when `onLeft` holds and to its right slot otherwise.  There is no result
when the turns do not end at a leaf. -/
def attachChild : Node → List Bool → Bool → Int → Option Node
  | Node.null, _, _, _ => none
  | Node.mk l k r, [], true, c =>
    if l.isNull && r.isNull then some (Node.mk (Node.mk Node.null c Node.null) k Node.null)
    else none
  | Node.mk l k r, [], false, c =>
    if l.isNull && r.isNull then some (Node.mk Node.null k (Node.mk Node.null c Node.null))
    else none
  | Node.mk l k r, true :: path, onLeft, c =>
    (attachChild l path onLeft c).map (fun l2 => Node.mk l2 k r)
  | Node.mk l k r, false :: path, onLeft, c =>
    (attachChild r path onLeft c).map (fun r2 => Node.mk l k r2)

end EqualPaths

namespace AVL
variable {K V : Type}

/-! ## Heights and balances -/

theorem toInt8_eq {x : Int} (h1 : -128 ≤ x) (h2 : x < 128) : toInt8 x = x := by
  unfold toInt8; omega

theorem fixHeightAndBalance_snd (t : Tree K V) :
    (fixHeightAndBalance t).2 = heightNode t := by
  induction t with
  | nil => rfl
  | node l k v b r ihl ihr =>
    simp only [fixHeightAndBalance, heightNode, ihl, ihr]
    split <;> omega

theorem heightNode_fixHeightAndBalance (t : Tree K V) :
    heightNode (fixHeightAndBalance t).1 = heightNode t := by
  induction t with
  | nil => rfl
  | node l k v b r ihl ihr => simp only [fixHeightAndBalance, heightNode, ihl, ihr]

theorem Balanced.heightBalanced {t : Tree K V} (h : Balanced t) : HeightBalanced t := by
  induction t with
  | nil => trivial
  | node l k v b r ihl ihr =>
    obtain ⟨h1, h2, h3, _⟩ := h
    exact ⟨ihl h1, ihr h2, h3.1, h3.2⟩

theorem fixHeightAndBalance_balanced {t : Tree K V} (h : HeightBalanced t) :
    Balanced (fixHeightAndBalance t).1 := by
  induction t with
  | nil => trivial
  | node l k v b r ihl ihr =>
    obtain ⟨h1, h2, h3, h4⟩ := h
    simp only [fixHeightAndBalance, Balanced, fixHeightAndBalance_snd,
      heightNode_fixHeightAndBalance]
    exact ⟨ihl h1, ihr h2, ⟨h3, h4⟩, toInt8_eq (by omega) (by omega)⟩

theorem balanceOf_node_eq (l r : Tree K V) (k : K) (v : V) (b : Int)
    (h1 : heightNode l ≤ heightNode r + 2) (h2 : heightNode r ≤ heightNode l + 2) :
    balanceOf (Tree.node l k v b r) = (heightNode l : Int) - (heightNode r : Int) := by
  simp only [balanceOf]
  exact toInt8_eq (by omega) (by omega)

theorem balanceOf_of_balanced {t : Tree K V} (h : Balanced t) :
    -1 ≤ balanceOf t ∧ balanceOf t ≤ 1 := by
  cases t with
  | nil => simp [balanceOf]
  | node l k v b r =>
    obtain ⟨_, _, h3, _⟩ := h
    rw [balanceOf_node_eq l r k v b (by omega) (by omega)]
    exact h3

/-- The loop body of the upward walk at a node whose children are balanced and
differ in height by at most two: the subtree left in the slot is balanced, and
its height is that of the node or one less. -/
theorem rebalanceStep_spec (l r : Tree K V) (k : K) (v : V) (b : Int)
    (hl : Balanced l) (hr : Balanced r)
    (h1 : heightNode l ≤ heightNode r + 2) (h2 : heightNode r ≤ heightNode l + 2) :
    Balanced (rebalanceStep (Tree.node l k v b r)) ∧
    heightNode (rebalanceStep (Tree.node l k v b r)) ≤ 1 + max (heightNode l) (heightNode r) ∧
    1 + max (heightNode l) (heightNode r) ≤ heightNode (rebalanceStep (Tree.node l k v b r)) + 1 ∧
    (heightNode l ≤ heightNode r + 1 → heightNode r ≤ heightNode l + 1 →
      heightNode (rebalanceStep (Tree.node l k v b r)) = 1 + max (heightNode l) (heightNode r)) := by
  have hb := balanceOf_node_eq l r k v b h1 h2
  simp only [rebalanceStep, hb]
  by_cases c1 : (heightNode l : Int) - (heightNode r : Int) > 1
  · rw [if_pos (Or.inl c1)]
    simp only [rebalanceNode, if_pos c1]
    cases l with
    | nil => simp [heightNode] at c1; omega
    | node ll lk lv lb lr =>
      have hbl := balanceOf_node_eq ll lr lk lv lb (by have := hl.2.2.1; omega) (by have := hl.2.2.1; omega)
      obtain ⟨hll, hlr, hlbnd, hlb⟩ := hl
      rw [hbl]
      by_cases c2 : (heightNode ll : Int) - (heightNode lr : Int) < 0
      · rw [if_pos c2]
        cases lr with
        | nil => simp [heightNode] at c2; omega
        | node lrl lrk lrv lrb lrr =>
          obtain ⟨h5, h6, h7, _⟩ := hlr
          simp only [rotateLeft, rotateRight, heightNode_fixHeightAndBalance]
          simp only [heightNode] at *
          refine ⟨fixHeightAndBalance_balanced ?_, by omega, by omega, by omega⟩
          simp only [HeightBalanced, heightNode]
          exact ⟨⟨hll.heightBalanced, h5.heightBalanced, by omega, by omega⟩,
            ⟨h6.heightBalanced, hr.heightBalanced, by omega, by omega⟩, by omega, by omega⟩
      · rw [if_neg c2]
        simp only [rotateRight, heightNode_fixHeightAndBalance]
        simp only [heightNode] at *
        refine ⟨fixHeightAndBalance_balanced ?_, by omega, by omega, by omega⟩
        simp only [HeightBalanced, heightNode]
        exact ⟨hll.heightBalanced, ⟨hlr.heightBalanced, hr.heightBalanced, by omega, by omega⟩,
          by omega, by omega⟩
  · by_cases c3 : (heightNode l : Int) - (heightNode r : Int) < -1
    · rw [if_pos (Or.inr c3)]
      simp only [rebalanceNode, if_neg c1, if_pos c3]
      cases r with
      | nil => simp [heightNode] at c3; omega
      | node rl rk rv rb rr =>
        have hbr := balanceOf_node_eq rl rr rk rv rb (by have := hr.2.2.1; omega) (by have := hr.2.2.1; omega)
        obtain ⟨hrl, hrr, hrbnd, hrb⟩ := hr
        rw [hbr]
        by_cases c4 : (heightNode rl : Int) - (heightNode rr : Int) > 0
        · rw [if_pos c4]
          cases rl with
          | nil => simp [heightNode] at c4; omega
          | node rll rlk rlv rlb rlr =>
            obtain ⟨h5, h6, h7, _⟩ := hrl
            simp only [rotateLeft, rotateRight, heightNode_fixHeightAndBalance]
            simp only [heightNode] at *
            refine ⟨fixHeightAndBalance_balanced ?_, by omega, by omega, by omega⟩
            simp only [HeightBalanced, heightNode]
            exact ⟨⟨hl.heightBalanced, h5.heightBalanced, by omega, by omega⟩,
              ⟨h6.heightBalanced, hrr.heightBalanced, by omega, by omega⟩, by omega, by omega⟩
        · rw [if_neg c4]
          simp only [rotateLeft, heightNode_fixHeightAndBalance]
          simp only [heightNode] at *
          refine ⟨fixHeightAndBalance_balanced ?_, by omega, by omega, by omega⟩
          simp only [HeightBalanced, heightNode]
          exact ⟨⟨hl.heightBalanced, hrl.heightBalanced, by omega, by omega⟩,
            hrr.heightBalanced, by omega, by omega⟩
    · rw [if_neg (by rintro (h | h) <;> omega)]
      simp only [heightNode]
      exact ⟨⟨hl, hr, ⟨by omega, by omega⟩, rfl⟩, by omega, by omega, fun _ _ => trivial⟩

/-! ## Locations -/

theorem heightNode_plug (f : Frame K V) (t : Tree K V) :
    heightNode (f.plug t) = 1 + max (heightNode t) (heightNode f.sibling) := by
  obtain ⟨s, fk, fv, fb, sib⟩ := f
  cases s <;> simp [Frame.plug, heightNode, max_comm]

theorem balanced_plug_iff (f : Frame K V) (t : Tree K V) :
    Balanced (f.plug t) ↔ Balanced t ∧ CtxBalanced [f] (heightNode t) := by
  obtain ⟨s, fk, fv, fb, sib⟩ := f
  cases s
  · simp only [Frame.plug, Balanced, CtxBalanced]
    constructor
    · rintro ⟨h1, h2, h3, h4⟩; exact ⟨h1, h2, h3, h4, trivial⟩
    · rintro ⟨h1, h2, h3, h4, _⟩; exact ⟨h1, h2, h3, h4⟩
  · simp only [Frame.plug, Balanced, CtxBalanced]
    constructor
    · rintro ⟨h1, h2, h3, h4⟩; exact ⟨h2, h1, ⟨by omega, by omega⟩, h4, trivial⟩
    · rintro ⟨h1, h2, h3, h4, _⟩; exact ⟨h2, h1, ⟨by omega, by omega⟩, h4⟩

theorem balanced_plugAll_iff (path : List (Frame K V)) (t : Tree K V) :
    Balanced (plugAll t path) ↔ Balanced t ∧ CtxBalanced path (heightNode t) := by
  induction path generalizing t with
  | nil => simp [plugAll, CtxBalanced]
  | cons f fs ih =>
    rw [plugAll, ih, balanced_plug_iff, heightNode_plug]
    simp only [CtxBalanced, and_true]
    tauto

theorem plugAll_append (t : Tree K V) (p q : List (Frame K V)) :
    plugAll t (p ++ q) = plugAll (plugAll t p) q := by
  induction p generalizing t with
  | nil => rfl
  | cons f fs ih => exact ih (f.plug t)

/-- The upward walk restores the balance invariant when the subtree written into
the slot is balanced and its height is within one of the height the chain of
ancestors was balanced for. -/
theorem rebalanceUpwards_balanced (path : List (Frame K V)) (t : Tree K V) (h0 : Nat)
    (hc : CtxBalanced path h0) (ht : Balanced t)
    (h1 : heightNode t ≤ h0 + 1) (h2 : h0 ≤ heightNode t + 1) :
    Balanced (rebalanceUpwards t path) := by
  induction path generalizing t h0 with
  | nil => exact ht
  | cons f fs ih =>
    obtain ⟨s, fk, fv, fb, sib⟩ := f
    obtain ⟨hs, hbnd, _, hrest⟩ := hc
    simp only at hs hbnd hrest
    rw [rebalanceUpwards]
    cases s
    · simp only [Frame.plug]
      obtain ⟨r1, r2, r3, r4⟩ := rebalanceStep_spec t sib fk fv fb ht hs (by omega) (by omega)
      refine ih _ _ hrest r1 (by omega) ?_
      by_cases c : heightNode t ≤ heightNode sib + 1 ∧ heightNode sib ≤ heightNode t + 1
      · rw [r4 c.1 c.2]; omega
      · omega
    · simp only [Frame.plug]
      obtain ⟨r1, r2, r3, r4⟩ := rebalanceStep_spec sib t fk fv fb hs ht (by omega) (by omega)
      refine ih _ _ hrest r1 (by omega) ?_
      by_cases c : heightNode sib ≤ heightNode t + 1 ∧ heightNode t ≤ heightNode sib + 1
      · rw [r4 c.1 c.2]; omega
      · omega

section Ordered
variable [LinearOrder K]

theorem insertLoop_balanced (k : K) (v : V) (t : Tree K V) (path : List (Frame K V))
    (ht : Balanced t) (hc : CtxBalanced path (heightNode t)) :
    Balanced (insertLoop k v t path) := by
  induction t generalizing path with
  | nil =>
    rw [insertLoop]
    refine rebalanceUpwards_balanced path _ 0 hc ?_ (by simp [heightNode]) (by omega)
    simp [Balanced, heightNode]
  | node l k1 v1 b r ihl ihr =>
    rw [insertLoop]
    obtain ⟨hl, hr, hbnd, hb⟩ := ht
    split_ifs with c1 c2
    · rw [balanced_plugAll_iff]
      exact ⟨⟨hl, hr, hbnd, hb⟩, hc⟩
    · refine ihl _ hl ?_
      simp only [heightNode] at hc
      simp only [CtxBalanced]
      exact ⟨hr, hbnd, hb, hc⟩
    · refine ihr _ hr ?_
      simp only [heightNode] at hc
      simp only [CtxBalanced]
      refine ⟨hl, ⟨by omega, by omega⟩, hb, ?_⟩
      rw [max_comm]
      exact hc

theorem insert_balanced (t : Tree K V) (new_item : K × V) (ht : Balanced t) :
    Balanced (insert t new_item) := by
  cases t with
  | nil => simp [insert, Balanced, heightNode]
  | node l k1 v1 b r =>
    rw [insert]
    exact insertLoop_balanced _ _ _ [] ht trivial

end Ordered

/-! ## In-order traversal of locations -/

theorem inorder_fixHeightAndBalance (t : Tree K V) :
    inorder (fixHeightAndBalance t).1 = inorder t := by
  induction t with
  | nil => rfl
  | node l k v b r ihl ihr => simp only [fixHeightAndBalance, inorder, ihl, ihr]

theorem inorder_rotateLeft (t : Tree K V) : inorder (rotateLeft t) = inorder t := by
  cases t with
  | nil => rfl
  | node a k v b r =>
    cases r with
    | nil => rfl
    | node bl rk rv rb c => simp [rotateLeft, inorder]

theorem inorder_rotateRight (t : Tree K V) : inorder (rotateRight t) = inorder t := by
  cases t with
  | nil => rfl
  | node l k v b c =>
    cases l with
    | nil => rfl
    | node a lk lv lb br => simp [rotateRight, inorder]

theorem inorder_rebalanceNode (t : Tree K V) : inorder (rebalanceNode t) = inorder t := by
  cases t with
  | nil => rfl
  | node l k v b r =>
    simp only [rebalanceNode]
    split_ifs <;> simp [inorder_rotateLeft, inorder_rotateRight, inorder]

theorem inorder_rebalanceStep (t : Tree K V) : inorder (rebalanceStep t) = inorder t := by
  cases t with
  | nil => rfl
  | node l k v b r =>
    simp only [rebalanceStep]
    split_ifs
    · rw [inorder_fixHeightAndBalance, inorder_rebalanceNode]; rfl
    · rfl

theorem inorder_plug (f : Frame K V) (t : Tree K V) :
    inorder (f.plug t) = ctxBefore [f] ++ inorder t ++ ctxAfter [f] := by
  obtain ⟨s, fk, fv, fb, sib⟩ := f
  cases s <;> simp [Frame.plug, inorder, ctxBefore, ctxAfter]

theorem ctxBefore_cons (f : Frame K V) (fs : List (Frame K V)) :
    ctxBefore (f :: fs) = ctxBefore fs ++ ctxBefore [f] := by
  simp [ctxBefore]

theorem ctxAfter_cons (f : Frame K V) (fs : List (Frame K V)) :
    ctxAfter (f :: fs) = ctxAfter [f] ++ ctxAfter fs := by
  simp [ctxAfter]

theorem ctxBefore_append (p q : List (Frame K V)) :
    ctxBefore (p ++ q) = ctxBefore q ++ ctxBefore p := by
  induction p with
  | nil => simp [ctxBefore]
  | cons f fs ih =>
    rw [List.cons_append, ctxBefore_cons, ih, ctxBefore_cons f fs, List.append_assoc]

theorem ctxAfter_append (p q : List (Frame K V)) :
    ctxAfter (p ++ q) = ctxAfter p ++ ctxAfter q := by
  induction p with
  | nil => simp [ctxAfter]
  | cons f fs ih =>
    rw [List.cons_append, ctxAfter_cons, ih, ctxAfter_cons f fs, List.append_assoc]

theorem inorder_plugAll (path : List (Frame K V)) (t : Tree K V) :
    inorder (plugAll t path) = ctxBefore path ++ inorder t ++ ctxAfter path := by
  induction path generalizing t with
  | nil => simp [plugAll, ctxBefore, ctxAfter]
  | cons f fs ih =>
    rw [plugAll, ih, inorder_plug, ctxBefore_cons f fs, ctxAfter_cons f fs]
    simp only [List.append_assoc]

/-- The upward walk does not change the in-order sequence of the tree. -/
theorem inorder_rebalanceUpwards (path : List (Frame K V)) (t : Tree K V) :
    inorder (rebalanceUpwards t path) = ctxBefore path ++ inorder t ++ ctxAfter path := by
  induction path generalizing t with
  | nil => simp [rebalanceUpwards, ctxBefore, ctxAfter]
  | cons f fs ih =>
    rw [rebalanceUpwards, ih, inorder_rebalanceStep, inorder_plug, ctxBefore_cons f fs,
      ctxAfter_cons f fs]
    simp only [List.append_assoc]

/-! ## The pieces of `remove` -/

theorem rightmost_some (t : Tree K V) (path : List (Frame K V)) (p : Tree K V)
    (path1 : List (Frame K V)) (h : rightmost t path = some (p, path1)) :
    (∃ pl pk pv pb, p = Tree.node pl pk pv pb Tree.nil) ∧
      plugAll p path1 = plugAll t path ∧ ctxAfter path1 = ctxAfter path := by
  induction t generalizing path with
  | nil => simp [rightmost] at h
  | node l k v b r _ ihr =>
    cases r with
    | nil =>
      simp only [rightmost, Option.some.injEq, Prod.mk.injEq] at h
      obtain ⟨rfl, rfl⟩ := h
      exact ⟨⟨l, k, v, b, rfl⟩, rfl, rfl⟩
    | node rl rk rv rb rr =>
      rw [rightmost] at h
      obtain ⟨h1, h2, h3⟩ := ihr _ h
      refine ⟨h1, ?_, ?_⟩
      · rw [h2]; rfl
      · rw [h3]; simp [ctxAfter]

theorem rightmost_append (t : Tree K V) (q path : List (Frame K V)) :
    rightmost t (q ++ path) = (rightmost t q).map (fun x => (x.1, x.2 ++ path)) := by
  induction t generalizing q with
  | nil => rfl
  | node l k v b r _ ihr =>
    cases r with
    | nil => rfl
    | node rl rk rv rb rr =>
      rw [rightmost, rightmost, ← ihr]
      rfl

theorem rightmost_isSome (l : Tree K V) (k : K) (v : V) (b : Int) (r : Tree K V)
    (path : List (Frame K V)) : ∃ p, rightmost (Tree.node l k v b r) path = some p := by
  induction r generalizing l k v b path with
  | nil => exact ⟨_, rfl⟩
  | node rl rk rv rb rr _ ihr =>
    rw [rightmost]
    exact ihr _ _ _ _ _

theorem nodeSwap_eq (l r pl pr : Tree K V) (k pk : K) (v pv : V) (b pb : Int)
    (path spine : List (Frame K V)) :
    nodeSwap (Tree.node l k v b r, path) (Tree.node pl pk pv pb pr, spine) =
      (Tree.node pl k v pb pr, spine ++ ⟨Side.left, pk, pv, b, r⟩ :: path) := by
  have h : (spine ++ (⟨Side.left, pk, pv, pb, r⟩ : Frame K V) :: path).get? spine.length =
      some ⟨Side.left, pk, pv, pb, r⟩ := by
    rw [List.get?_eq_getElem?, List.getElem?_append_right (le_refl _)]
    simp
  simp only [nodeSwap, bstNodeSwap, exchangeBalance, h]
  simp

section Ordered
variable [LinearOrder K]

theorem internalFind_some (k : K) (t : Tree K V) (path : List (Frame K V)) (n : Tree K V)
    (path1 : List (Frame K V)) (h : internalFind k t path = some (n, path1)) :
    (∃ l v b r, n = Tree.node l k v b r) ∧ plugAll n path1 = plugAll t path := by
  induction t generalizing path with
  | nil => simp [internalFind] at h
  | node l k1 v1 b r ihl ihr =>
    rw [internalFind] at h
    split_ifs at h with c1 c2
    · simp only [Option.some.injEq, Prod.mk.injEq] at h
      obtain ⟨rfl, rfl⟩ := h
      exact ⟨⟨l, v1, b, r, by rw [c1]⟩, rfl⟩
    · obtain ⟨h1, h2⟩ := ihl _ h
      exact ⟨h1, by rw [h2]; rfl⟩
    · obtain ⟨h1, h2⟩ := ihr _ h
      exact ⟨h1, by rw [h2]; rfl⟩

theorem internalFind_none_of_not_mem (k : K) (t : Tree K V) (path : List (Frame K V))
    (h : k ∉ keys t) : internalFind k t path = none := by
  induction t generalizing path with
  | nil => rfl
  | node l k1 v1 b r ihl ihr =>
    simp only [keys, inorder, List.map_append, List.map_cons, List.mem_append,
      List.mem_cons, not_or] at h
    rw [internalFind, if_neg h.2.1]
    split_ifs
    · exact ihl _ (by simpa [keys] using h.1)
    · exact ihr _ (by simpa [keys] using h.2.2)

theorem remove_of_find_none (t : Tree K V) (key : K) (h : internalFind key t [] = none) :
    remove t key = t := by
  simp only [remove, h]

/-- What `remove` does once the node is found: it runs the upward walk on a
subtree `c` written into the head of a chain `path1`; the node physically
removed sat at that place, had `c` as its only subtree, and the pairs of the
tree other than the removed one are kept in order. -/
theorem remove_found (t : Tree K V) (key k : K) (l r : Tree K V) (v : V) (b : Int)
    (path : List (Frame K V))
    (h : internalFind key t [] = some (Tree.node l k v b r, path)) :
    ∃ c path1, remove t key = rebalanceUpwards c path1 ∧
      ctxBefore path1 ++ inorder c ++ ctxAfter path1 =
        ctxBefore path ++ (inorder l ++ inorder r) ++ ctxAfter path ∧
      (Balanced (Tree.node l k v b r) →
        CtxBalanced path (heightNode (Tree.node l k v b r)) →
        Balanced c ∧ CtxBalanced path1 (heightNode c + 1)) := by
  by_cases two : (!l.isNil && !r.isNil) = true
  · -- two children: swap with the predecessor
    cases l with
    | nil => simp [Tree.isNil] at two
    | node ll lk lv lb lr =>
      obtain ⟨⟨p, spine⟩, hp⟩ := rightmost_isSome ll lk lv lb lr []
      obtain ⟨⟨pl, pk, pv, pb, rfl⟩, hplug, hafter⟩ := rightmost_some _ _ _ _ hp
      refine ⟨pl, spine ++ ⟨Side.left, pk, pv, b, r⟩ :: path, ?_, ?_, ?_⟩
      · simp only [remove, h, two, if_true, predecessor, hp, nodeSwap_eq]
        cases pl <;> simp [Tree.isNil]
      · have e : inorder (Tree.node ll lk lv lb lr) =
            ctxBefore spine ++ (inorder pl ++ [(pk, pv)]) := by
          have e1 := inorder_plugAll spine (Tree.node pl pk pv pb Tree.nil)
          rw [hplug, hafter] at e1
          simp only [plugAll, ctxAfter, List.append_nil, List.append_assoc] at e1
          exact e1
        rw [ctxBefore_append, ctxAfter_append, hafter, e]
        simp [ctxBefore, ctxAfter]
      · intro hn hc
        have hn1 : Balanced (Tree.node (Tree.node ll lk lv lb lr) pk pv b r) := hn
        have hc1 : CtxBalanced path
            (heightNode (Tree.node (Tree.node ll lk lv lb lr) pk pv b r)) := hc
        have hb := (balanced_plugAll_iff path _).2 ⟨hn1, hc1⟩
        have e : plugAll (Tree.node (Tree.node ll lk lv lb lr) pk pv b r) path =
            plugAll (Tree.node pl pk pv pb Tree.nil)
              (spine ++ ⟨Side.left, pk, pv, b, r⟩ :: path) := by
          rw [plugAll_append, hplug]; rfl
        rw [e, balanced_plugAll_iff] at hb
        obtain ⟨hb1, hb2⟩ := hb
        refine ⟨hb1.1, ?_⟩
        have : heightNode (Tree.node pl pk pv pb Tree.nil) = heightNode pl + 1 := by
          simp [heightNode]; omega
        rw [← this]
        exact hb2
  · -- at most one child: splice the node out
    refine ⟨if !l.isNil then l else r, path, ?_, ?_, ?_⟩
    · simp only [remove, h, two]
      rfl
    · cases l with
      | nil => simp [Tree.isNil, inorder]
      | node ll lk lv lb lr =>
        cases r with
        | nil => simp [Tree.isNil, inorder]
        | node rl rk rv rb rr => simp [Tree.isNil] at two
    · intro hn hc
      cases l with
      | nil =>
        show Balanced r ∧ CtxBalanced path (heightNode r + 1)
        refine ⟨hn.2.1, ?_⟩
        have : heightNode (Tree.node Tree.nil k v b r) = heightNode r + 1 := by
          simp [heightNode]; omega
        rw [← this]; exact hc
      | node ll lk lv lb lr =>
        cases r with
        | nil =>
          show Balanced (Tree.node ll lk lv lb lr) ∧
            CtxBalanced path (heightNode (Tree.node ll lk lv lb lr) + 1)
          refine ⟨hn.1, ?_⟩
          have : heightNode (Tree.node (Tree.node ll lk lv lb lr) k v b Tree.nil) =
              heightNode (Tree.node ll lk lv lb lr) + 1 := by
            simp [heightNode]; omega
          rw [← this]; exact hc
        | node rl rk rv rb rr => simp [Tree.isNil] at two

theorem remove_balanced (t : Tree K V) (key : K) (ht : Balanced t) :
    Balanced (remove t key) := by
  cases hf : internalFind key t [] with
  | none => rw [remove_of_find_none t key hf]; exact ht
  | some loc =>
    obtain ⟨n, path⟩ := loc
    obtain ⟨⟨l, v, b, r, rfl⟩, hplug⟩ := internalFind_some _ _ _ _ _ hf
    obtain ⟨c, path1, e, _, hbal⟩ := remove_found t key key l r v b path hf
    simp only [plugAll] at hplug
    rw [← hplug, balanced_plugAll_iff] at ht
    obtain ⟨hc1, hc2⟩ := hbal ht.1 ht.2
    rw [e]
    exact rebalanceUpwards_balanced path1 c _ hc2 hc1 (by omega) (by omega)

/-! ## BST order through the in-order traversal -/

theorem BST_node_iff (l r : Tree K V) (k : K) (v : V) (b : Int) :
    BST (Tree.node l k v b r) ↔
      BST l ∧ BST r ∧ (∀ x ∈ inorder l, x.1 < k) ∧ (∀ x ∈ inorder r, k < x.1) := by
  simp only [BST, keys, inorder, List.map_append, List.map_cons, List.Sorted,
    List.pairwise_append, List.pairwise_cons, List.mem_cons, List.mem_map, forall_exists_index,
    and_imp, forall_apply_eq_imp_iff₂, forall_eq_or_imp]
  constructor
  · rintro ⟨h1, ⟨h2, h3⟩, h4⟩
    exact ⟨h1, h3, fun x hx => (h4 x hx).1, h2⟩
  · rintro ⟨h1, h2, h3, h4⟩
    exact ⟨h1, ⟨h4, h2⟩, fun x hx => ⟨h3 x hx, fun y hy => lt_trans (h3 x hx) (h4 y hy)⟩⟩

theorem insertList_append_of_lt (k : K) (v : V) (k1 : K) (v1 : V) (h : k < k1)
    (A B : List (K × V)) :
    insertList k v (A ++ (k1, v1) :: B) = insertList k v A ++ (k1, v1) :: B := by
  induction A with
  | nil => simp [insertList, h, ne_of_lt h]
  | cons a A ih =>
    obtain ⟨a, w⟩ := a
    simp only [List.cons_append, insertList]
    split_ifs <;> simp [ih]

theorem insertList_append_of_gt (k : K) (v : V) (A B : List (K × V))
    (h : ∀ x ∈ A, x.1 < k) : insertList k v (A ++ B) = A ++ insertList k v B := by
  induction A with
  | nil => rfl
  | cons a A ih =>
    obtain ⟨a, w⟩ := a
    have ha : a < k := h (a, w) (List.mem_cons_self _ _)
    simp only [List.cons_append, insertList, if_neg (ne_of_gt ha), if_neg (not_lt_of_gt ha)]
    exact congrArg _ (ih (fun x hx => h x (List.mem_cons_of_mem _ hx)))

theorem inorder_insertLoop (k : K) (v : V) (t : Tree K V) (path : List (Frame K V))
    (hb : BST t) :
    inorder (insertLoop k v t path) =
      ctxBefore path ++ insertList k v (inorder t) ++ ctxAfter path := by
  induction t generalizing path with
  | nil => rw [insertLoop, inorder_rebalanceUpwards]; rfl
  | node l k1 v1 b r ihl ihr =>
    obtain ⟨hl, hr, hlt, hgt⟩ := (BST_node_iff l r k1 v1 b).1 hb
    rw [insertLoop]
    split_ifs with c1 c2
    · subst c1
      rw [inorder_plugAll]
      simp only [inorder]
      rw [insertList_append_of_gt k v _ _ hlt]
      simp [insertList]
    · rw [ihl _ hl]
      simp only [inorder]
      rw [insertList_append_of_lt k v k1 v1 c2]
      simp [ctxBefore, ctxAfter]
    · have c3 : k1 < k := lt_of_le_of_ne (not_lt.1 c2) (Ne.symm c1)
      rw [ihr _ hr]
      simp only [inorder]
      have e : inorder l ++ (k1, v1) :: inorder r = (inorder l ++ [(k1, v1)]) ++ inorder r := by
        simp
      rw [e, insertList_append_of_gt k v _ _ (by
        intro x hx
        rcases List.mem_append.1 hx with hx | hx
        · exact lt_trans (hlt x hx) c3
        · simp only [List.mem_singleton] at hx
          rw [hx]; exact c3)]
      simp [ctxBefore, ctxAfter]

/-- On a search tree `insert` acts on the in-order traversal as sorted-list
insertion with overwrite. -/
theorem inorder_insert (t : Tree K V) (new_item : K × V) (hb : BST t) :
    inorder (insert t new_item) = insertList new_item.1 new_item.2 (inorder t) := by
  cases t with
  | nil => rfl
  | node l k1 v1 b r =>
    rw [insert, inorder_insertLoop _ _ _ _ hb]
    simp [ctxBefore, ctxAfter]

theorem mem_insertList_imp (k : K) (v : V) (L : List (K × V)) (p : K × V)
    (h : p ∈ insertList k v L) : p = (k, v) ∨ p ∈ L := by
  induction L with
  | nil => simpa [insertList] using h
  | cons a L ih =>
    obtain ⟨a, w⟩ := a
    simp only [insertList] at h
    split_ifs at h
    · rcases List.mem_cons.1 h with h | h
      · exact Or.inl h
      · exact Or.inr (List.mem_cons_of_mem _ h)
    · rcases List.mem_cons.1 h with h | h
      · exact Or.inl h
      · exact Or.inr h
    · rcases List.mem_cons.1 h with h | h
      · exact Or.inr (h ▸ List.mem_cons_self _ _)
      · rcases ih h with h | h
        · exact Or.inl h
        · exact Or.inr (List.mem_cons_of_mem _ h)

theorem sorted_insertList (k : K) (v : V) (L : List (K × V))
    (h : (L.map Prod.fst).Sorted (· < ·)) :
    ((insertList k v L).map Prod.fst).Sorted (· < ·) := by
  induction L with
  | nil => simp [insertList]
  | cons a L ih =>
    obtain ⟨a, w⟩ := a
    simp only [List.map_cons, List.sorted_cons, List.mem_map, forall_exists_index, and_imp,
      forall_apply_eq_imp_iff₂] at h
    simp only [insertList]
    split_ifs with c1 c2
    · subst c1
      simp only [List.map_cons, List.sorted_cons, List.mem_map, forall_exists_index, and_imp,
        forall_apply_eq_imp_iff₂]
      exact h
    · simp only [List.map_cons, List.sorted_cons, List.mem_map, forall_exists_index, and_imp,
        forall_apply_eq_imp_iff₂, List.mem_cons, forall_eq_or_imp]
      exact ⟨⟨c2, fun x hx => lt_trans c2 (h.1 x hx)⟩, h⟩
    · have c3 : a < k := lt_of_le_of_ne (not_lt.1 c2) (Ne.symm c1)
      simp only [List.map_cons, List.sorted_cons, List.mem_map, forall_exists_index, and_imp,
        forall_apply_eq_imp_iff₂]
      refine ⟨fun x hx => ?_, ih h.2⟩
      rcases mem_insertList_imp k v L x hx with hx | hx
      · rw [hx]; exact c3
      · exact h.1 x hx

theorem insert_BST (t : Tree K V) (new_item : K × V) (hb : BST t) :
    BST (insert t new_item) := by
  unfold BST keys
  rw [inorder_insert t new_item hb]
  exact sorted_insertList _ _ _ hb

end Ordered

theorem size_eq_length (t : Tree K V) : size t = (inorder t).length := by
  induction t with
  | nil => rfl
  | node l k v b r ihl ihr => simp only [size, inorder, List.length_append, List.length_cons, ihl, ihr]; omega

section Ordered
variable [LinearOrder K]

theorem filter_ne_of_lt (k : K) (L : List (K × V)) (h : ∀ x ∈ L, x.1 < k) :
    L.filter (fun p => decide (p.1 ≠ k)) = L :=
  List.filter_eq_self.2 (fun x hx => decide_eq_true (ne_of_lt (h x hx)))

theorem filter_ne_of_gt (k : K) (L : List (K × V)) (h : ∀ x ∈ L, k < x.1) :
    L.filter (fun p => decide (p.1 ≠ k)) = L :=
  List.filter_eq_self.2 (fun x hx => decide_eq_true (ne_of_gt (h x hx)))

/-- The lookup on a search tree: it fails exactly when the key is not in the tree,
and the node it yields splits the in-order traversal around the pair of the key. -/
theorem internalFind_inorder (k : K) (t : Tree K V) (path : List (Frame K V)) (hb : BST t) :
    match internalFind k t path with
    | none => k ∉ keys t
    | some (n, path1) => ∃ l v b r, n = Tree.node l k v b r ∧
        ctxBefore path1 ++ (inorder l ++ inorder r) ++ ctxAfter path1 =
          ctxBefore path ++ (inorder t).filter (fun p => decide (p.1 ≠ k)) ++ ctxAfter path := by
  induction t generalizing path with
  | nil => simp [internalFind, keys, inorder]
  | node l k1 v1 b r ihl ihr =>
    obtain ⟨hl, hr, hlt, hgt⟩ := (BST_node_iff l r k1 v1 b).1 hb
    rw [internalFind]
    split_ifs with c1 c2
    · subst c1
      refine ⟨l, v1, b, r, rfl, ?_⟩
      simp only [inorder, List.filter_append, List.filter_cons, filter_ne_of_lt k _ hlt,
        filter_ne_of_gt k _ hgt]
      simp
    · have hgt1 : ∀ x ∈ inorder r, k < x.1 := fun x hx => lt_trans c2 (hgt x hx)
      have ih := ihl (⟨Side.left, k1, v1, b, r⟩ :: path) hl
      cases hf : internalFind k l (⟨Side.left, k1, v1, b, r⟩ :: path) with
      | none =>
        rw [hf] at ih
        simp only [keys, inorder, List.map_append, List.map_cons, List.mem_append,
          List.mem_cons, not_or]
        refine ⟨ih, c1, ?_⟩
        simp only [List.mem_map, not_exists, not_and]
        intro x hx hk
        exact absurd (hgt1 x hx) (by rw [hk]; exact lt_irrefl _)
      | some loc =>
        obtain ⟨n, path1⟩ := loc
        rw [hf] at ih
        obtain ⟨l1, w, b1, r1, hn, e⟩ := ih
        refine ⟨l1, w, b1, r1, hn, ?_⟩
        rw [e]
        simp only [inorder, List.filter_append, List.filter_cons, filter_ne_of_gt k _ hgt1]
        simp [ctxBefore, ctxAfter, Ne.symm c1]
    · have c3 : k1 < k := lt_of_le_of_ne (not_lt.1 c2) (Ne.symm c1)
      have hlt1 : ∀ x ∈ inorder l, x.1 < k := fun x hx => lt_trans (hlt x hx) c3
      have ih := ihr (⟨Side.right, k1, v1, b, l⟩ :: path) hr
      cases hf : internalFind k r (⟨Side.right, k1, v1, b, l⟩ :: path) with
      | none =>
        rw [hf] at ih
        simp only [keys, inorder, List.map_append, List.map_cons, List.mem_append,
          List.mem_cons, not_or]
        refine ⟨?_, c1, ih⟩
        simp only [List.mem_map, not_exists, not_and]
        intro x hx hk
        exact absurd (hlt1 x hx) (by rw [hk]; exact lt_irrefl _)
      | some loc =>
        obtain ⟨n, path1⟩ := loc
        rw [hf] at ih
        obtain ⟨l1, w, b1, r1, hn, e⟩ := ih
        refine ⟨l1, w, b1, r1, hn, ?_⟩
        rw [e]
        simp only [inorder, List.filter_append, List.filter_cons, filter_ne_of_lt k _ hlt1]
        simp [ctxBefore, ctxAfter, Ne.symm c1]

/-- On a search tree `remove` deletes the pair of the key from the in-order
traversal and keeps every other pair in place. -/
theorem inorder_remove (t : Tree K V) (key : K) (hb : BST t) :
    inorder (remove t key) = (inorder t).filter (fun p => decide (p.1 ≠ key)) := by
  have h := internalFind_inorder key t [] hb
  cases hf : internalFind key t [] with
  | none =>
    rw [hf] at h
    rw [remove_of_find_none t key hf]
    symm
    apply List.filter_eq_self.2
    intro x hx
    apply decide_eq_true
    intro hk
    exact h (by rw [← hk]; exact List.mem_map_of_mem _ hx)
  | some loc =>
    obtain ⟨n, path⟩ := loc
    rw [hf] at h
    obtain ⟨l, v, b, r, rfl, e⟩ := h
    obtain ⟨c, path1, e1, e2, _⟩ := remove_found t key key l r v b path hf
    rw [e1, inorder_rebalanceUpwards, e2, e]
    simp [ctxBefore, ctxAfter]

theorem remove_BST (t : Tree K V) (key : K) (hb : BST t) : BST (remove t key) := by
  unfold BST keys
  rw [inorder_remove t key hb]
  exact (List.Pairwise.sublist (List.Sublist.map _ (List.filter_sublist _)) hb)

/-- On a search tree the lookup of a key yields the value paired with it in the
in-order traversal. -/
theorem find_eq_some_iff (t : Tree K V) (k : K) (v : V) (hb : BST t) :
    find t k = some v ↔ (k, v) ∈ inorder t := by
  have aux : ∀ (t : Tree K V) (path : List (Frame K V)), BST t →
      ((match internalFind k t path with
        | some (Tree.node _ _ w _ _, _) => some w
        | _ => none) = some v ↔ (k, v) ∈ inorder t) := by
    intro t
    induction t with
    | nil => intro path _; simp [internalFind, inorder]
    | node l k1 v1 b r ihl ihr =>
      intro path hb
      obtain ⟨hl, hr, hlt, hgt⟩ := (BST_node_iff l r k1 v1 b).1 hb
      rw [internalFind]
      split_ifs with c1 c2
      · subst c1
        simp only [inorder, List.mem_append, List.mem_cons, Prod.mk.injEq, true_and,
          Option.some.injEq]
        constructor
        · intro h; exact Or.inr (Or.inl h.symm)
        · rintro (h | h | h)
          · exact absurd (hlt _ h) (lt_irrefl _)
          · exact h.symm
          · exact absurd (hgt _ h) (lt_irrefl _)
      · rw [ihl _ hl]
        simp only [inorder, List.mem_append, List.mem_cons, Prod.mk.injEq]
        constructor
        · intro h; exact Or.inl h
        · rintro (h | h | h)
          · exact h
          · exact absurd h.1 c1
          · exact absurd (hgt _ h) (not_lt_of_gt c2)
      · have c3 : k1 < k := lt_of_le_of_ne (not_lt.1 c2) (Ne.symm c1)
        rw [ihr _ hr]
        simp only [inorder, List.mem_append, List.mem_cons, Prod.mk.injEq]
        constructor
        · intro h; exact Or.inr (Or.inr h)
        · rintro (h | h | h)
          · exact absurd (hlt _ h) (not_lt_of_gt c3)
          · exact absurd h.1 c1
          · exact h
  exact aux t [] hb

/-! ## List-level facts used by the contracts -/

theorem mem_insertList_self (k : K) (v : V) (L : List (K × V)) : (k, v) ∈ insertList k v L := by
  induction L with
  | nil => simp [insertList]
  | cons a L ih =>
    obtain ⟨a, w⟩ := a
    simp only [insertList]
    split_ifs
    · exact List.mem_cons_self _ _
    · exact List.mem_cons_self _ _
    · exact List.mem_cons_of_mem _ ih

theorem mem_insertList_of_ne (k : K) (v : V) (L : List (K × V)) (p : K × V) (hp : p.1 ≠ k) :
    p ∈ insertList k v L ↔ p ∈ L := by
  have hne : p ≠ (k, v) := fun h => hp (by rw [h])
  induction L with
  | nil => simp [insertList, hne]
  | cons a L ih =>
    obtain ⟨a, w⟩ := a
    simp only [insertList]
    split_ifs with c1 c2
    · subst c1
      have hne1 : p ≠ (k, w) := fun h => hp (by rw [h])
      simp [hne, hne1]
    · simp [hne]
    · simp [ih]

theorem length_insertList (k : K) (v : V) (L : List (K × V))
    (h : (L.map Prod.fst).Sorted (· < ·)) :
    (insertList k v L).length = if k ∈ L.map Prod.fst then L.length else L.length + 1 := by
  induction L with
  | nil => simp [insertList]
  | cons a L ih =>
    obtain ⟨a, w⟩ := a
    simp only [List.map_cons, List.sorted_cons] at h
    simp only [insertList]
    by_cases c1 : k = a
    · rw [if_pos c1, if_pos (by rw [c1]; exact List.mem_cons_self _ _)]
      rfl
    · rw [if_neg c1]
      have hiff : k ∈ List.map Prod.fst ((a, w) :: L) ↔ k ∈ L.map Prod.fst := by
        simp only [List.map_cons, List.mem_cons, c1, false_or]
      by_cases c2 : k < a
      · have hn : k ∉ L.map Prod.fst := fun hm => absurd (h.1 k hm) (not_lt_of_gt c2)
        rw [if_pos c2, if_neg (fun hm => hn (hiff.1 hm))]
        rfl
      · rw [if_neg c2, List.length_cons, ih h.2]
        by_cases hm : k ∈ L.map Prod.fst
        · rw [if_pos hm, if_pos (hiff.2 hm)]; rfl
        · rw [if_neg hm, if_neg (fun hm1 => hm (hiff.1 hm1))]; rfl

theorem keys_nodup_of_BST (t : Tree K V) (hb : BST t) : (keys t).Nodup :=
  List.Sorted.nodup hb

/-- Removing a key that is in a search tree deletes exactly its pair from the
in-order traversal. -/
theorem remove_split (t : Tree K V) (k : K) (hb : BST t) (hk : k ∈ keys t) :
    ∃ v A B, inorder t = A ++ (k, v) :: B ∧ inorder (remove t k) = A ++ B ∧
      (∀ x ∈ A, x.1 < k) ∧ (∀ x ∈ B, k < x.1) := by
  obtain ⟨p, hp, hpk⟩ := List.mem_map.1 hk
  obtain ⟨k1, v⟩ := p
  simp only at hpk
  subst hpk
  obtain ⟨A, B, hAB⟩ := List.append_of_mem hp
  have hs : ((A ++ (k1, v) :: B).map Prod.fst).Sorted (· < ·) := by
    rw [← hAB]; exact hb
  simp only [List.map_append, List.map_cons, List.Sorted, List.pairwise_append,
    List.pairwise_cons, List.mem_cons, List.mem_map, forall_exists_index, and_imp,
    forall_apply_eq_imp_iff₂, forall_eq_or_imp] at hs
  have hA : ∀ x ∈ A, x.1 < k1 := fun x hx => (hs.2.2 x hx).1
  have hB : ∀ x ∈ B, k1 < x.1 := hs.2.1.1
  refine ⟨v, A, B, hAB, ?_, hA, hB⟩
  rw [inorder_remove t k1 hb, hAB]
  simp only [List.filter_append, List.filter_cons, filter_ne_of_lt k1 _ hA,
    filter_ne_of_gt k1 _ hB]
  simp

theorem valid_foldl_applyOp (ops : List (Op K V)) (t : Tree K V) (h : Valid t) :
    Valid (ops.foldl applyOp t) := by
  induction ops generalizing t with
  | nil => exact h
  | cons op ops ih =>
    apply ih
    cases op with
    | insert item => exact ⟨insert_BST t item h.1, insert_balanced t item h.2⟩
    | remove key => exact ⟨remove_BST t key h.1, remove_balanced t key h.2⟩

theorem valid_run (ops : List (Op K V)) : Valid (run ops) :=
  valid_foldl_applyOp ops Tree.nil ⟨by simp [BST, keys, inorder], trivial⟩

/-! ## The contracts of `insert` and `remove` -/

/-- C1: on a tree satisfying the AVL invariants, `insert` yields a tree in which
every node has |height(left) - height(right)| ≤ 1 and a stored balance equal to
height(left) - height(right). -/
theorem insert_preserves_balance (t : Tree K V) (k : K) (v : V) (h : Valid t) :
    Balanced (insert t (k, v)) :=
  insert_balanced t (k, v) h.2

theorem insert_preserves_balance_witness :
    Valid (Tree.node Tree.nil (10 : Nat) (0 : Nat) (-1) (Tree.node Tree.nil 20 0 0 Tree.nil)) ∧
      Balanced (insert
        (Tree.node Tree.nil (10 : Nat) (0 : Nat) (-1) (Tree.node Tree.nil 20 0 0 Tree.nil))
        (30, 0)) :=
  ⟨by decide, insert_preserves_balance _ 30 0 (by decide)⟩

/-- C2: on a tree satisfying the AVL invariants, `remove` yields a tree in which
every node has |height(left) - height(right)| ≤ 1 and a stored balance equal to
height(left) - height(right); the node may have two children and the walk may
rotate at several ancestors. -/
theorem remove_preserves_balance (t : Tree K V) (k : K) (h : Valid t) :
    Balanced (remove t k) :=
  remove_balanced t k h.2

theorem remove_preserves_balance_witness :
    Valid (Tree.node (Tree.node (Tree.node Tree.nil (1 : Nat) (0 : Nat) 0 Tree.nil) 2 0 1 Tree.nil)
        3 0 1 (Tree.node Tree.nil 4 0 0 Tree.nil)) ∧
      Balanced (remove
        (Tree.node (Tree.node (Tree.node Tree.nil (1 : Nat) (0 : Nat) 0 Tree.nil) 2 0 1 Tree.nil)
          3 0 1 (Tree.node Tree.nil 4 0 0 Tree.nil)) 3) :=
  ⟨by decide, remove_preserves_balance _ 3 (by decide)⟩

/-- C3: after any finite sequence of `insert` and `remove` applied to the empty
tree the in-order traversal lists the keys in strictly ascending order, so no
two nodes share a key. -/
theorem run_keys_strictly_ascending (ops : List (Op K V)) :
    (keys (run ops)).Sorted (· < ·) ∧ (keys (run ops)).Nodup :=
  ⟨(valid_run ops).1, keys_nodup_of_BST _ (valid_run ops).1⟩

/-- C4: in `insert t (k, v)` the lookup of `k` yields `v`, also when `k` was in
the tree with another value, and the lookup of any other key yields what it
yielded in `t`. -/
theorem find_insert (t : Tree K V) (k : K) (v : V) (h : Valid t) :
    find (insert t (k, v)) k = some v ∧
      ∀ k1, k1 ≠ k → find (insert t (k, v)) k1 = find t k1 := by
  have hb := insert_BST t (k, v) h.1
  refine ⟨?_, fun k1 hk1 => ?_⟩
  · rw [find_eq_some_iff _ _ _ hb, inorder_insert t (k, v) h.1]
    exact mem_insertList_self k v _
  · apply Option.ext
    intro w
    rw [Option.mem_def, Option.mem_def, find_eq_some_iff _ _ _ hb, find_eq_some_iff _ _ _ h.1,
      inorder_insert t (k, v) h.1]
    exact mem_insertList_of_ne k v _ (k1, w) hk1

theorem find_insert_witness :
    Valid (Tree.node Tree.nil (10 : Nat) (1 : Nat) (-1) (Tree.node Tree.nil 20 2 0 Tree.nil)) ∧
      find (insert
          (Tree.node Tree.nil (10 : Nat) (1 : Nat) (-1) (Tree.node Tree.nil 20 2 0 Tree.nil))
          (20, 7)) 20 = some 7 :=
  ⟨by decide, (find_insert _ 20 7 (by decide)).1⟩

/-- C5: removing a key that is in a valid tree makes its lookup fail, leaves the
lookup of every other key as it was, and turns the in-order list `A ++ (k, v) :: B`
into `A ++ B`: the single pair of the key is deleted. -/
theorem remove_present (t : Tree K V) (k : K) (h : Valid t) (hk : k ∈ keys t) :
    find (remove t k) k = none ∧
      (∀ k1, k1 ≠ k → find (remove t k) k1 = find t k1) ∧
      (∃ v A B, inorder t = A ++ (k, v) :: B ∧ inorder (remove t k) = A ++ B ∧
        k ∉ A.map Prod.fst ∧ k ∉ B.map Prod.fst) := by
  have hb := remove_BST t k h.1
  obtain ⟨v, A, B, e1, e2, hA, hB⟩ := remove_split t k h.1 hk
  have nA : k ∉ A.map Prod.fst := by
    intro hm
    obtain ⟨x, hx, hxk⟩ := List.mem_map.1 hm
    exact absurd (hA x hx) (by rw [hxk]; exact lt_irrefl _)
  have nB : k ∉ B.map Prod.fst := by
    intro hm
    obtain ⟨x, hx, hxk⟩ := List.mem_map.1 hm
    exact absurd (hB x hx) (by rw [hxk]; exact lt_irrefl _)
  refine ⟨?_, fun k1 hk1 => ?_, v, A, B, e1, e2, nA, nB⟩
  · apply Option.eq_none_iff_forall_not_mem.2
    intro w hw
    rw [Option.mem_def, find_eq_some_iff _ _ _ hb, e2] at hw
    rcases List.mem_append.1 hw with hw | hw
    · exact nA (List.mem_map_of_mem Prod.fst hw)
    · exact nB (List.mem_map_of_mem Prod.fst hw)
  · apply Option.ext
    intro w
    rw [Option.mem_def, Option.mem_def, find_eq_some_iff _ _ _ hb, find_eq_some_iff _ _ _ h.1,
      e1, e2]
    simp only [List.mem_append, List.mem_cons, Prod.mk.injEq]
    constructor
    · rintro (hw | hw)
      · exact Or.inl hw
      · exact Or.inr (Or.inr hw)
    · rintro (hw | hw | hw)
      · exact Or.inl hw
      · exact absurd hw.1 hk1
      · exact Or.inr hw

theorem remove_present_witness :
    Valid (Tree.node (Tree.node (Tree.node Tree.nil (1 : Nat) (5 : Nat) 0 Tree.nil) 2 6 1 Tree.nil)
        3 7 1 (Tree.node Tree.nil 4 8 0 Tree.nil)) ∧
      3 ∈ keys (Tree.node (Tree.node (Tree.node Tree.nil (1 : Nat) (5 : Nat) 0 Tree.nil) 2 6 1
        Tree.nil) 3 7 1 (Tree.node Tree.nil 4 8 0 Tree.nil)) ∧
      find (remove (Tree.node (Tree.node (Tree.node Tree.nil (1 : Nat) (5 : Nat) 0 Tree.nil) 2 6 1
        Tree.nil) 3 7 1 (Tree.node Tree.nil 4 8 0 Tree.nil)) 3) 3 = none :=
  ⟨by decide, by decide, (remove_present _ 3 (by decide) (by decide)).1⟩

/-- C6: on a valid tree with n nodes, `insert` gives n + 1 nodes when the key is
absent and n nodes when it is present; `remove` gives n - 1 nodes when the key
is present and n nodes when it is absent. -/
theorem size_accounting (t : Tree K V) (k : K) (v : V) (h : Valid t) :
    (k ∉ keys t → size (insert t (k, v)) = size t + 1) ∧
      (k ∈ keys t → size (insert t (k, v)) = size t) ∧
      (k ∈ keys t → size (remove t k) = size t - 1 ∧ 0 < size t) ∧
      (k ∉ keys t → size (remove t k) = size t) := by
  have hi : size (insert t (k, v)) = if k ∈ keys t then size t else size t + 1 := by
    rw [size_eq_length, size_eq_length, inorder_insert t (k, v) h.1]
    exact length_insertList k v _ h.1
  refine ⟨fun hk => ?_, fun hk => ?_, fun hk => ?_, fun hk => ?_⟩
  · rw [hi, if_neg hk]
  · rw [hi, if_pos hk]
  · obtain ⟨w, A, B, e1, e2, _, _⟩ := remove_split t k h.1 hk
    rw [size_eq_length, size_eq_length, e1, e2]
    simp only [List.length_append, List.length_cons]
    omega
  · rw [remove_of_find_none t k (internalFind_none_of_not_mem k t [] hk)]

theorem size_accounting_witness :
    Valid (Tree.node Tree.nil (10 : Nat) (1 : Nat) (-1) (Tree.node Tree.nil 20 2 0 Tree.nil)) ∧
      size (remove
        (Tree.node Tree.nil (10 : Nat) (1 : Nat) (-1) (Tree.node Tree.nil 20 2 0 Tree.nil)) 30) =
      size (Tree.node Tree.nil (10 : Nat) (1 : Nat) (-1) (Tree.node Tree.nil 20 2 0 Tree.nil)) :=
  ⟨by decide, (size_accounting _ 30 0 (by decide)).2.2.2 (by decide)⟩

/-- C7: removing a key that is not in a valid tree returns the tree unchanged:
same shape, keys, values, stored balances and root. -/
theorem remove_absent (t : Tree K V) (k : K) (_h : Valid t) (hk : k ∉ keys t) :
    remove t k = t :=
  remove_of_find_none t k (internalFind_none_of_not_mem k t [] hk)

theorem remove_absent_witness :
    Valid (Tree.node Tree.nil (10 : Nat) (1 : Nat) (-1) (Tree.node Tree.nil 20 2 0 Tree.nil)) ∧
      15 ∉ keys (Tree.node Tree.nil (10 : Nat) (1 : Nat) (-1) (Tree.node Tree.nil 20 2 0 Tree.nil)) ∧
      remove (Tree.node Tree.nil (10 : Nat) (1 : Nat) (-1) (Tree.node Tree.nil 20 2 0 Tree.nil)) 15 =
        Tree.node Tree.nil (10 : Nat) (1 : Nat) (-1) (Tree.node Tree.nil 20 2 0 Tree.nil) :=
  ⟨by decide, by decide, remove_absent _ 15 (by decide) (by decide)⟩

theorem mem_keys_insertList (k : K) (v : V) (L : List (K × V)) (x : K) :
    x ∈ (insertList k v L).map Prod.fst ↔ x = k ∨ x ∈ L.map Prod.fst := by
  induction L with
  | nil => simp [insertList]
  | cons a L ih =>
    obtain ⟨a, w⟩ := a
    simp only [insertList]
    split_ifs with c1 c2
    · subst c1; simp
    · simp
    · simp only [List.map_cons, List.mem_cons, ih]
      tauto

theorem foldl_insert_spec (items : List (K × V)) (t : Tree K V) (hb : BST t) :
    BST (items.foldl insert t) ∧
      ∀ x, x ∈ keys (items.foldl insert t) ↔ x ∈ keys t ∨ x ∈ items.map Prod.fst := by
  induction items generalizing t with
  | nil => simp [hb]
  | cons a items ih =>
    obtain ⟨h1, h2⟩ := ih (insert t a) (insert_BST t a hb)
    refine ⟨h1, fun x => ?_⟩
    rw [List.foldl_cons, h2]
    unfold keys
    rw [inorder_insert t a hb, mem_keys_insertList]
    simp only [List.map_cons, List.mem_cons]
    tauto

theorem keys_foldl_insert (items : List (K × V)) :
    keys (items.foldl insert Tree.nil) = (items.map Prod.fst).toFinset.sort (· ≤ ·) := by
  obtain ⟨h1, h2⟩ := foldl_insert_spec items (Tree.nil : Tree K V) (by simp [BST, keys, inorder])
  refine List.eq_of_perm_of_sorted ?_ h1 (Finset.sort_sorted_lt _)
  refine (List.perm_ext_iff_of_nodup (keys_nodup_of_BST _ h1) (Finset.sort_nodup _ _)).2 ?_
  intro x
  rw [h2, Finset.mem_sort, List.mem_toFinset]
  simp [keys, inorder]

/-- C8: inserting the keys of a finite set `S`, in any order and with any values,
into the empty tree and reading the tree in-order yields the elements of `S` in
ascending order; so two orderings of `S` give the same in-order keys. -/
theorem insert_permutation_sorted (S : Finset K) (items : List (K × V))
    (_hnd : (items.map Prod.fst).Nodup) (hS : (items.map Prod.fst).toFinset = S) :
    keys (items.foldl insert Tree.nil) = S.sort (· ≤ ·) ∧
      ∀ items2 : List (K × V), (items2.map Prod.fst).Nodup →
        (items2.map Prod.fst).toFinset = S →
        keys (items2.foldl insert Tree.nil) = keys (items.foldl insert Tree.nil) := by
  refine ⟨by rw [keys_foldl_insert, hS], fun items2 _ h2 => ?_⟩
  rw [keys_foldl_insert, keys_foldl_insert, hS, h2]

theorem insert_permutation_sorted_witness :
    ([((3 : Nat), (0 : Nat)), (1, 0), (2, 0)].map Prod.fst).Nodup ∧
      keys ([((3 : Nat), (0 : Nat)), (1, 0), (2, 0)].foldl insert Tree.nil) =
        ([((3 : Nat), (0 : Nat)), (1, 0), (2, 0)].map Prod.fst).toFinset.sort (· ≤ ·) :=
  ⟨by decide, (insert_permutation_sorted _ [(3, 0), (1, 0), (2, 0)] (by decide) rfl).1⟩

end Ordered

/-! ## Height bound -/

theorem size_lower_bound (t : Tree K V) (hb : HeightBalanced t) :
    ((323 : ℝ) / 200) ^ heightNode t ≤ (size t : ℝ) + 1 := by
  induction t with
  | nil => simp [heightNode, size]
  | node l k v b r ihl ihr =>
    obtain ⟨hl, hr, h1, h2⟩ := hb
    have il := ihl hl
    have ir := ihr hr
    have pl : (0 : ℝ) < ((323 : ℝ) / 200) ^ heightNode l := by positivity
    have pr : (0 : ℝ) < ((323 : ℝ) / 200) ^ heightNode r := by positivity
    simp only [heightNode, size, Nat.cast_add, Nat.cast_one]
    rcases (by omega : heightNode l = heightNode r ∨ heightNode l = heightNode r + 1 ∨
      heightNode r = heightNode l + 1) with e | e | e
    · rw [e, max_self, pow_add, pow_one]
      rw [e] at il
      nlinarith
    · have hm : max (heightNode l) (heightNode r) = heightNode r + 1 := by omega
      rw [hm, pow_add, pow_add, pow_one]
      rw [e, pow_add, pow_one] at il
      nlinarith
    · have hm : max (heightNode l) (heightNode r) = heightNode l + 1 := by omega
      rw [hm, pow_add, pow_add, pow_one]
      rw [e, pow_add, pow_one] at ir
      nlinarith

theorem height_le_log (t : Tree K V) (hb : HeightBalanced t) :
    (heightNode t : ℝ) ≤ 1.45 * Real.logb 2 ((size t : ℝ) + 2) := by
  have h1 := size_lower_bound t hb
  have hn : (0 : ℝ) ≤ (size t : ℝ) := Nat.cast_nonneg _
  have hc : (2 : ℝ) ^ 20 ≤ ((323 : ℝ) / 200) ^ 29 := by norm_num
  have h2 : ((2 : ℝ) ^ 20) ^ heightNode t ≤ (((323 : ℝ) / 200) ^ 29) ^ heightNode t :=
    pow_le_pow_left₀ (by positivity) hc _
  have h3 : (((323 : ℝ) / 200) ^ heightNode t) ^ 29 ≤ ((size t : ℝ) + 2) ^ 29 :=
    pow_le_pow_left₀ (by positivity) (by linarith) _
  have h4 : (2 : ℝ) ^ (20 * heightNode t) ≤ ((size t : ℝ) + 2) ^ 29 := by
    calc (2 : ℝ) ^ (20 * heightNode t) = ((2 : ℝ) ^ 20) ^ heightNode t := by rw [pow_mul]
      _ ≤ (((323 : ℝ) / 200) ^ 29) ^ heightNode t := h2
      _ = (((323 : ℝ) / 200) ^ heightNode t) ^ 29 := by rw [← pow_mul, ← pow_mul, mul_comm]
      _ ≤ ((size t : ℝ) + 2) ^ 29 := h3
  have h5 := Real.logb_le_logb_of_le (by norm_num : (1 : ℝ) < 2) (by positivity) h4
  rw [Real.logb_pow, Real.logb_pow, Real.logb_self_eq_one (by norm_num)] at h5
  push_cast at h5
  linarith

section Ordered
variable [LinearOrder K]

/-- C9: every tree reached from the empty tree by `insert` and `remove`, with n
nodes and height h as computed by `heightNode`, has h ≤ 1.45 * log2 (n + 2). -/
theorem height_bound (ops : List (Op K V)) :
    (heightNode (run ops) : ℝ) ≤ 1.45 * Real.logb 2 ((size (run ops) : ℝ) + 2) :=
  height_le_log _ (valid_run ops).2.heightBalanced

end Ordered

end AVL

namespace EqualPaths

theorem scanLeaves_append (A B : List Nat) (fd : Int) :
    scanLeaves (A ++ B) fd =
      if (scanLeaves A fd).1 then scanLeaves B (scanLeaves A fd).2 else scanLeaves A fd := by
  induction A generalizing fd with
  | nil => simp [scanLeaves]
  | cons x xs ih =>
    simp only [List.cons_append, scanLeaves]
    split_ifs with c1 c2 c3 <;> simp_all

/-- The traversal is the scan of the leaf depths in visiting order. -/
theorem dfs_node_eq_scanLeaves (t : Node) (d : Nat) (fd : Int) :
    dfs_node t (d : Int) fd = scanLeaves (leafDepths t d) fd := by
  induction t generalizing d fd with
  | null => rfl
  | mk l k r ihl ihr =>
    have hl := ihl (d + 1)
    have hr := ihr (d + 1)
    simp only [Nat.cast_add, Nat.cast_one] at hl hr
    simp only [dfs_node, leafDepths]
    by_cases leaf : (l.isNull && r.isNull) = true
    · simp only [leaf, if_true, scanLeaves]
      split_ifs <;> simp_all
    · simp only [leaf, if_false, Bool.false_eq_true]
      rw [scanLeaves_append, hl, hr]
      split_ifs with c
      · rfl
      · have : (scanLeaves (leafDepths l (d + 1)) fd).1 = false := by simpa using c
        rw [← this]

theorem scanLeaves_of_set (L : List Nat) (fd : Int) (h : fd ≠ -1) :
    (scanLeaves L fd).1 = true ↔ ∀ x ∈ L, (x : Int) = fd := by
  induction L with
  | nil => simp [scanLeaves]
  | cons x xs ih =>
    simp only [scanLeaves, if_neg h, List.mem_cons, forall_eq_or_imp]
    split_ifs with c
    · rw [ih]; simp [c]
    · simp [c]

theorem scanLeaves_of_unset (L : List Nat) :
    (scanLeaves L (-1)).1 = true ↔ ∀ x ∈ L, ∀ y ∈ L, x = y := by
  cases L with
  | nil => simp [scanLeaves]
  | cons x xs =>
    simp only [scanLeaves, if_true]
    rw [scanLeaves_of_set xs x (by omega)]
    constructor
    · intro h a ha b hb
      have ea : a = x := by
        rcases List.mem_cons.1 ha with e | e
        · exact e
        · exact Nat.cast_inj.1 (h a e)
      have eb : b = x := by
        rcases List.mem_cons.1 hb with e | e
        · exact e
        · exact Nat.cast_inj.1 (h b e)
      rw [ea, eb]
    · intro h y hy
      exact congrArg _ (h y (List.mem_cons_of_mem _ hy) x (List.mem_cons_self _ _))

theorem leafDepths_perfect (t : Node) (h : Nat) (hp : Perfect t h) (d : Nat) :
    ∀ x ∈ leafDepths t d, x + 1 = d + h := by
  induction t generalizing h d with
  | null => simp [leafDepths]
  | mk l k r ihl ihr =>
    cases h with
    | zero => exact absurd hp (by simp [Perfect])
    | succ h =>
      obtain ⟨hpl, hpr⟩ := hp
      intro x hx
      simp only [leafDepths] at hx
      split_ifs at hx with leaf
      · cases l with
        | null =>
          have : h = 0 := hpl
          simp only [List.mem_singleton] at hx
          omega
        | mk a b c => simp [Node.isNull] at leaf
      · rcases List.mem_append.1 hx with hx | hx
        · have := ihl h hpl (d + 1) x hx; omega
        · have := ihr h hpr (d + 1) x hx; omega

/-- C10: `equalPaths` returns true exactly when the tree is empty or all its
leaves (nodes without children; a node with one child is not a leaf) lie at the
same depth; it returns true for the empty tree, for a single node and for
every perfect binary tree. -/
theorem equalPaths_spec (root : Node) :
    (equalPaths root = true ↔
      (root = Node.null ∨ ∀ d1 ∈ leafDepths root 0, ∀ d2 ∈ leafDepths root 0, d1 = d2)) ∧
    equalPaths Node.null = true ∧
    (∀ k : Int, equalPaths (Node.mk Node.null k Node.null) = true) ∧
    (∀ (t : Node) (h : Nat), Perfect t h → equalPaths t = true) := by
  have key : ∀ t : Node, equalPaths t = true ↔
      ∀ d1 ∈ leafDepths t 0, ∀ d2 ∈ leafDepths t 0, d1 = d2 := by
    intro t
    unfold equalPaths
    have e := dfs_node_eq_scanLeaves t 0 (-1)
    simp only [Nat.cast_zero] at e
    rw [e, scanLeaves_of_unset]
  refine ⟨?_, ?_, ?_, ?_⟩
  · rw [key]
    constructor
    · intro h; exact Or.inr h
    · rintro (h | h)
      · subst h; simp [leafDepths]
      · exact h
  · rw [key]; simp [leafDepths]
  · intro k; rw [key]; simp [leafDepths, Node.isNull]
  · intro t h hp
    rw [key]
    intro d1 h1 d2 h2
    have a1 := leafDepths_perfect t h hp 0 d1 h1
    have a2 := leafDepths_perfect t h hp 0 d2 h2
    omega

theorem equalPaths_spec_witness :
    Perfect (Node.mk (Node.mk Node.null 2 Node.null) 1 (Node.mk Node.null 3 Node.null)) 2 ∧
      equalPaths (Node.mk (Node.mk Node.null 2 Node.null) 1 (Node.mk Node.null 3 Node.null)) =
        true :=
  ⟨⟨⟨rfl, rfl⟩, ⟨rfl, rfl⟩⟩,
    (equalPaths_spec Node.null).2.2.2 _ 2 ⟨⟨rfl, rfl⟩, ⟨rfl, rfl⟩⟩⟩

end EqualPaths

namespace EqualPaths

/-- C11 fails as stated: with node 7 removed the leaves 4, 5 and 6 all lie at
depth 2, and `equalPaths` returns true, not false. -/
theorem equalPaths_scenario_counterexample :
    ¬ (equalPaths (Node.mk (Node.mk (Node.mk Node.null 4 Node.null) 2 (Node.mk Node.null 5 Node.null))
        1 (Node.mk (Node.mk Node.null 6 Node.null) 3 (Node.mk Node.null 7 Node.null))) = true ∧
      equalPaths (Node.mk (Node.mk (Node.mk Node.null 4 Node.null) 2 (Node.mk Node.null 5 Node.null))
        1 (Node.mk (Node.mk Node.null 6 Node.null) 3 Node.null)) = false) := by
  decide

/-- C11 (amended): on the tree 1(2(4,5),3(6,7)) `equalPaths` returns true, and on
the tree with node 7 removed, where 3 has only the left child 6, it returns
true as well: its leaves 4, 5 and 6 are all at depth 2. -/
theorem equalPaths_scenario :
    equalPaths (Node.mk (Node.mk (Node.mk Node.null 4 Node.null) 2 (Node.mk Node.null 5 Node.null))
        1 (Node.mk (Node.mk Node.null 6 Node.null) 3 (Node.mk Node.null 7 Node.null))) = true ∧
    equalPaths (Node.mk (Node.mk (Node.mk Node.null 4 Node.null) 2 (Node.mk Node.null 5 Node.null))
        1 (Node.mk (Node.mk Node.null 6 Node.null) 3 Node.null)) = true ∧
    leafDepths (Node.mk (Node.mk (Node.mk Node.null 4 Node.null) 2 (Node.mk Node.null 5 Node.null))
        1 (Node.mk (Node.mk Node.null 6 Node.null) 3 Node.null)) 0 = [2, 2, 2] := by
  decide

end EqualPaths

namespace AVL
variable {K V : Type}

/-- C14: inserting 1, 2, ..., 7 in ascending order into the empty tree gives a
tree with in-order keys 1..7, height 3 (in nodes) and root key 4. -/
theorem insert_ascending_seven :
    keys (([1, 2, 3, 4, 5, 6, 7] : List Nat).foldl (fun t k => insert t (k, ()))
      (Tree.nil : Tree Nat Unit)) = [1, 2, 3, 4, 5, 6, 7] ∧
    heightNode (([1, 2, 3, 4, 5, 6, 7] : List Nat).foldl (fun t k => insert t (k, ()))
      (Tree.nil : Tree Nat Unit)) = 3 ∧
    rootKey (([1, 2, 3, 4, 5, 6, 7] : List Nat).foldl (fun t k => insert t (k, ()))
      (Tree.nil : Tree Nat Unit)) = some 4 := by
  decide

theorem toInt8_neg_one : toInt8 (-1) = -1 := by decide
theorem toInt8_zero : toInt8 0 = 0 := by decide
theorem toInt8_one : toInt8 1 = 1 := by decide
theorem toInt8_two : toInt8 2 = 2 := by decide
theorem toInt8_neg_two : toInt8 (-2) = -2 := by decide

theorem rotateLeft_node (A B C : Tree K V) (k rk : K) (v rv : V) (b rb : Int) :
    rotateLeft (Tree.node A k v b (Tree.node B rk rv rb C)) =
      Tree.node (Tree.node A k v b B) rk rv rb C := rfl

theorem rotateRight_node (A B C : Tree K V) (k lk : K) (v lv : V) (b lb : Int) :
    rotateRight (Tree.node (Tree.node A lk lv lb B) k v b C) =
      Tree.node A lk lv lb (Tree.node B k v b C) := rfl

section Ordered
variable [LinearOrder K]

theorem insert_two_ascending (a b : K) (va vb : V) (hab : a < b) :
    insert (insert Tree.nil (a, va)) (b, vb) =
      Tree.node Tree.nil a va (-1) (Tree.node Tree.nil b vb 0 Tree.nil) := by
  simp [insert, insertLoop, rebalanceUpwards, rebalanceStep, Frame.plug, balanceOf, heightNode,
    hab, not_lt_of_gt hab, ne_of_gt hab, toInt8_neg_one]

theorem insert_two_descending (a b : K) (va vb : V) (hab : a < b) :
    insert (insert Tree.nil (b, vb)) (a, va) =
      Tree.node (Tree.node Tree.nil a va 0 Tree.nil) b vb 1 Tree.nil := by
  simp [insert, insertLoop, rebalanceUpwards, rebalanceStep, Frame.plug, balanceOf, heightNode,
    hab, ne_of_lt hab, toInt8_one]

/-- C13: for keys a < b < c inserted into the empty tree in any of the six
orders, the result has root b with the leaves a and c as left and right child,
and all three stored balances are 0. -/
theorem insert_three_keys (a b c : K) (va vb vc : V) (hab : a < b) (hbc : b < c) :
    insert (insert (insert Tree.nil (a, va)) (b, vb)) (c, vc) =
      Tree.node (Tree.node Tree.nil a va 0 Tree.nil) b vb 0 (Tree.node Tree.nil c vc 0 Tree.nil) ∧
    insert (insert (insert Tree.nil (a, va)) (c, vc)) (b, vb) =
      Tree.node (Tree.node Tree.nil a va 0 Tree.nil) b vb 0 (Tree.node Tree.nil c vc 0 Tree.nil) ∧
    insert (insert (insert Tree.nil (b, vb)) (a, va)) (c, vc) =
      Tree.node (Tree.node Tree.nil a va 0 Tree.nil) b vb 0 (Tree.node Tree.nil c vc 0 Tree.nil) ∧
    insert (insert (insert Tree.nil (b, vb)) (c, vc)) (a, va) =
      Tree.node (Tree.node Tree.nil a va 0 Tree.nil) b vb 0 (Tree.node Tree.nil c vc 0 Tree.nil) ∧
    insert (insert (insert Tree.nil (c, vc)) (a, va)) (b, vb) =
      Tree.node (Tree.node Tree.nil a va 0 Tree.nil) b vb 0 (Tree.node Tree.nil c vc 0 Tree.nil) ∧
    insert (insert (insert Tree.nil (c, vc)) (b, vb)) (a, va) =
      Tree.node (Tree.node Tree.nil a va 0 Tree.nil) b vb 0 (Tree.node Tree.nil c vc 0 Tree.nil) := by
  have hac : a < c := lt_trans hab hbc
  set_option maxRecDepth 10000 in
  refine ⟨?_, ?_, ?_, ?_, ?_, ?_⟩
  · rw [insert_two_ascending a b va vb hab]
    simp [insert, insertLoop, rebalanceUpwards, rebalanceStep, rebalanceNode, rotateLeft_node,
      fixHeightAndBalance, Frame.plug, balanceOf, heightNode,
      not_lt_of_gt hbc, not_lt_of_gt hac, ne_of_gt hbc, ne_of_gt hac,
      toInt8_neg_one, toInt8_zero, toInt8_neg_two]
  · rw [insert_two_ascending a c va vc hac]
    simp [insert, insertLoop, rebalanceUpwards, rebalanceStep, rebalanceNode, rotateLeft_node,
      rotateRight_node, fixHeightAndBalance, Frame.plug, balanceOf, heightNode,
      hbc, not_lt_of_gt hab, ne_of_gt hab, ne_of_lt hbc,
      toInt8_neg_one, toInt8_zero, toInt8_one, toInt8_neg_two]
  · rw [insert_two_descending a b va vb hab]
    simp [insert, insertLoop, rebalanceUpwards, rebalanceStep, Frame.plug, balanceOf, heightNode,
      not_lt_of_gt hbc, ne_of_gt hbc, toInt8_zero]
  · rw [insert_two_ascending b c vb vc hbc]
    simp [insert, insertLoop, rebalanceUpwards, rebalanceStep, Frame.plug, balanceOf, heightNode,
      hab, ne_of_lt hab, toInt8_zero]
  · rw [insert_two_descending a c va vc hac]
    simp [insert, insertLoop, rebalanceUpwards, rebalanceStep, rebalanceNode, rotateLeft_node,
      rotateRight_node, fixHeightAndBalance, Frame.plug, balanceOf, heightNode,
      hbc, not_lt_of_gt hab, ne_of_gt hab, ne_of_lt hbc,
      toInt8_neg_one, toInt8_zero, toInt8_one, toInt8_two]
  · rw [insert_two_descending b c vb vc hbc]
    simp [insert, insertLoop, rebalanceUpwards, rebalanceStep, rebalanceNode, rotateRight_node,
      fixHeightAndBalance, Frame.plug, balanceOf, heightNode,
      hab, hac, ne_of_lt hab, ne_of_lt hac,
      toInt8_one, toInt8_zero, toInt8_two]

theorem insert_three_keys_witness :
    (10 : Nat) < 20 ∧ (20 : Nat) < 30 ∧
      insert (insert (insert Tree.nil ((10 : Nat), ())) (30, ())) (20, ()) =
        Tree.node (Tree.node Tree.nil 10 () 0 Tree.nil) 20 () 0 (Tree.node Tree.nil 30 () 0 Tree.nil) :=
  ⟨by decide, by decide, (insert_three_keys 10 20 30 () () () (by decide) (by decide)).2.1⟩

/-- C17: `rotateLeft` on x = (A, k, (B, rk, C)) puts r in the slot of x with x as
its left child, A and B under x and C kept on the right of r; `rotateRight` is
the mirror image; the in-order pairs of the whole tree, hence BST order, are
unchanged; an absent node or an absent required child makes the rotation the
identity. -/
theorem rotate_spec (A B C : Tree K V) (k rk : K) (v rv : V) (b rb : Int) :
    rotateLeft (Tree.node A k v b (Tree.node B rk rv rb C)) =
      Tree.node (Tree.node A k v b B) rk rv rb C ∧
    rotateRight (Tree.node (Tree.node A rk rv rb B) k v b C) =
      Tree.node A rk rv rb (Tree.node B k v b C) ∧
    (∀ (t : Tree K V) (path : List (Frame K V)),
      inorder (plugAll (rotateLeft t) path) = inorder (plugAll t path) ∧
      inorder (plugAll (rotateRight t) path) = inorder (plugAll t path) ∧
      (BST (plugAll (rotateLeft t) path) ↔ BST (plugAll t path)) ∧
      (BST (plugAll (rotateRight t) path) ↔ BST (plugAll t path))) ∧
    rotateLeft (Tree.nil : Tree K V) = Tree.nil ∧
    rotateLeft (Tree.node A k v b Tree.nil) = Tree.node A k v b Tree.nil ∧
    rotateRight (Tree.nil : Tree K V) = Tree.nil ∧
    rotateRight (Tree.node Tree.nil k v b C) = Tree.node Tree.nil k v b C := by
  refine ⟨rfl, rfl, fun t path => ?_, rfl, rfl, rfl, rfl⟩
  have e1 : inorder (plugAll (rotateLeft t) path) = inorder (plugAll t path) := by
    rw [inorder_plugAll, inorder_plugAll, inorder_rotateLeft]
  have e2 : inorder (plugAll (rotateRight t) path) = inorder (plugAll t path) := by
    rw [inorder_plugAll, inorder_plugAll, inorder_rotateRight]
  refine ⟨e1, e2, ?_, ?_⟩
  · unfold BST keys; rw [e1]
  · unfold BST keys; rw [e2]

end Ordered
end AVL

namespace AVL
variable {K V : Type}
section Ordered
variable [LinearOrder K]

theorem overwrite_of_not_mem (k : K) (v : V) (t : Tree K V) (h : ∀ x ∈ inorder t, x.1 ≠ k) :
    overwrite k v t = t := by
  induction t with
  | nil => rfl
  | node l k1 v1 b r ihl ihr =>
    simp only [inorder, List.mem_append, List.mem_cons] at h
    rw [overwrite, ihl (fun x hx => h x (Or.inl hx)), ihr (fun x hx => h x (Or.inr (Or.inr hx))),
      if_neg (h (k1, v1) (Or.inr (Or.inl rfl)))]

theorem insertLoop_present (k : K) (v : V) (t : Tree K V) (path : List (Frame K V))
    (hb : BST t) (hk : k ∈ keys t) :
    insertLoop k v t path = plugAll (overwrite k v t) path := by
  induction t generalizing path with
  | nil => simp [keys, inorder] at hk
  | node l k1 v1 b r ihl ihr =>
    obtain ⟨hl, hr, hlt, hgt⟩ := (BST_node_iff l r k1 v1 b).1 hb
    simp only [keys, inorder, List.map_append, List.map_cons, List.mem_append, List.mem_cons,
      List.mem_map] at hk
    rw [insertLoop, overwrite]
    by_cases c1 : k = k1
    · subst c1
      rw [if_pos rfl, if_pos rfl,
        overwrite_of_not_mem k v l (fun x hx => ne_of_lt (hlt x hx)),
        overwrite_of_not_mem k v r (fun x hx => ne_of_gt (hgt x hx))]
    · rw [if_neg c1, if_neg (show ¬ k1 = k from fun e => c1 e.symm)]
      by_cases c2 : k < k1
      · have hkl : k ∈ keys l := by
          rcases hk with ⟨x, hx, e⟩ | e | ⟨x, hx, e⟩
          · exact List.mem_map.2 ⟨x, hx, e⟩
          · exact absurd e c1
          · exact absurd (e ▸ hgt x hx) (not_lt_of_gt c2)
        rw [if_pos c2, ihl _ hl hkl, overwrite_of_not_mem k v r
          (fun x hx => ne_of_gt (lt_trans c2 (hgt x hx)))]
        rfl
      · have c6 : k1 < k := lt_of_le_of_ne (not_lt.1 c2) (Ne.symm c1)
        have hkr : k ∈ keys r := by
          rcases hk with ⟨x, hx, e⟩ | e | ⟨x, hx, e⟩
          · exact absurd (e ▸ hlt x hx) (not_lt_of_gt c6)
          · exact absurd e c1
          · exact List.mem_map.2 ⟨x, hx, e⟩
        rw [if_neg c2, ihr _ hr hkr, overwrite_of_not_mem k v l
          (fun x hx => ne_of_lt (lt_trans (hlt x hx) c6))]
        rfl

/-- C15: inserting a key that is already in a valid tree changes nothing but the
value stored with that key: the result is the input tree with that value set,
so shape, keys and stored balances are those of the input and no rotation or
balance update shows. -/
theorem insert_present (t : Tree K V) (k : K) (v : V) (h : Valid t) (hk : k ∈ keys t) :
    insert t (k, v) = overwrite k v t := by
  cases t with
  | nil => simp [keys, inorder] at hk
  | node l k1 v1 b r =>
    rw [insert, insertLoop_present k v _ [] h.1 hk]
    rfl

theorem insert_present_witness :
    Valid (Tree.node Tree.nil (10 : Nat) (1 : Nat) (-1) (Tree.node Tree.nil 20 2 0 Tree.nil)) ∧
      20 ∈ keys (Tree.node Tree.nil (10 : Nat) (1 : Nat) (-1) (Tree.node Tree.nil 20 2 0 Tree.nil)) ∧
      insert (Tree.node Tree.nil (10 : Nat) (1 : Nat) (-1) (Tree.node Tree.nil 20 2 0 Tree.nil))
        (20, 7) =
      overwrite 20 7
        (Tree.node Tree.nil (10 : Nat) (1 : Nat) (-1) (Tree.node Tree.nil 20 2 0 Tree.nil)) :=
  ⟨by decide, by decide, insert_present _ 20 7 (by decide) (by decide)⟩

end Ordered
end AVL


namespace EqualPaths

theorem equalPaths_iff_leafDepths (t : Node) :
    equalPaths t = true ↔ ∀ d1 ∈ leafDepths t 0, ∀ d2 ∈ leafDepths t 0, d1 = d2 := by
  unfold equalPaths
  have e := dfs_node_eq_scanLeaves t 0 (-1)
  simp only [Nat.cast_zero] at e
  rw [e, scanLeaves_of_unset]

theorem attachChild_isNull (t : Node) (path : List Bool) (onLeft : Bool) (c : Int) (t2 : Node)
    (h : attachChild t path onLeft c = some t2) : t2.isNull = false := by
  cases t with
  | null => simp [attachChild] at h
  | mk l k r =>
    cases path with
    | nil =>
      cases onLeft <;> simp only [attachChild] at h <;> split_ifs at h <;>
        simp only [Option.some.injEq] at h <;> subst h <;> rfl
    | cons s path =>
      cases s
      · simp only [attachChild, Option.map_eq_some'] at h
        obtain ⟨r2, _, e⟩ := h
        subst e; rfl
      · simp only [attachChild, Option.map_eq_some'] at h
        obtain ⟨l2, _, e⟩ := h
        subst e; rfl

theorem leafDepths_perfect_ne_nil (t : Node) (h : Nat) (hp : Perfect t (h + 1)) (d : Nat) :
    d + h ∈ leafDepths t d := by
  induction t generalizing h d with
  | null => simp [Perfect] at hp
  | mk l k r ihl _ =>
    obtain ⟨hpl, hpr⟩ := hp
    simp only [leafDepths]
    cases h with
    | zero =>
      cases l with
      | null =>
        cases r with
        | null => simp [Node.isNull]
        | mk a b c => simp [Perfect] at hpr
      | mk a b c => simp [Perfect] at hpl
    | succ h =>
      cases l with
      | null => simp [Perfect] at hpl
      | mk a b c =>
        simp only [Node.isNull, Bool.false_and, Bool.false_eq_true, if_false, List.mem_append]
        left
        have := ihl h hpl (d + 1)
        have e : d + (h + 1) = d + 1 + h := by omega
        rw [e]; exact this

/-- The new leaf lies one level below the last level of the perfect tree. -/
theorem attachChild_new_leaf (t : Node) (h : Nat) (hp : Perfect t h) (path : List Bool)
    (onLeft : Bool) (c : Int) (t2 : Node) (ha : attachChild t path onLeft c = some t2) (d : Nat) :
    d + h ∈ leafDepths t2 d := by
  induction t generalizing h d path t2 with
  | null => simp [attachChild] at ha
  | mk l k r ihl ihr =>
    cases h with
    | zero => simp [Perfect] at hp
    | succ h =>
      obtain ⟨hpl, hpr⟩ := hp
      cases path with
      | nil =>
        cases l with
        | null =>
          have h0 : h = 0 := hpl
          subst h0
          cases onLeft <;> simp only [attachChild] at ha <;> split_ifs at ha <;>
            simp only [Option.some.injEq] at ha <;> subst ha <;> simp [leafDepths, Node.isNull]
        | mk a b c =>
          cases onLeft <;> simp [attachChild, Node.isNull] at ha
      | cons s path =>
        cases s
        · simp only [attachChild, Option.map_eq_some'] at ha
          obtain ⟨r2, hr2, e⟩ := ha
          subst e
          have hn := attachChild_isNull r path onLeft c r2 hr2
          have := ihr h hpr path r2 hr2 (d + 1)
          simp only [leafDepths, hn, Bool.and_false, Bool.false_eq_true, if_false, List.mem_append]
          right
          have e : d + (h + 1) = d + 1 + h := by omega
          rw [e]; exact this
        · simp only [attachChild, Option.map_eq_some'] at ha
          obtain ⟨l2, hl2, e⟩ := ha
          subst e
          have hn := attachChild_isNull l path onLeft c l2 hl2
          have := ihl h hpl path l2 hl2 (d + 1)
          simp only [leafDepths, hn, Bool.false_and, Bool.false_eq_true, if_false, List.mem_append]
          left
          have e : d + (h + 1) = d + 1 + h := by omega
          rw [e]; exact this

/-- In a perfect tree of height at least two a leaf of the last level is left
where it was. -/
theorem attachChild_old_leaf (t : Node) (h : Nat) (hp : Perfect t (h + 2)) (path : List Bool)
    (onLeft : Bool) (c : Int) (t2 : Node) (ha : attachChild t path onLeft c = some t2) (d : Nat) :
    d + h + 1 ∈ leafDepths t2 d := by
  induction t generalizing h d path t2 with
  | null => simp [attachChild] at ha
  | mk l k r ihl ihr =>
    obtain ⟨hpl, hpr⟩ := hp
    cases path with
    | nil =>
      cases l with
      | null => simp [Perfect] at hpl
      | mk a b c => cases onLeft <;> simp [attachChild, Node.isNull] at ha
    | cons s path =>
      cases s
      · simp only [attachChild, Option.map_eq_some'] at ha
        obtain ⟨r2, hr2, e⟩ := ha
        subst e
        have hn := attachChild_isNull r path onLeft c r2 hr2
        simp only [leafDepths, hn, Bool.and_false, Bool.false_eq_true, if_false, List.mem_append]
        left
        have := leafDepths_perfect_ne_nil l h hpl (d + 1)
        have e : d + h + 1 = d + 1 + h := by omega
        rw [e]; exact this
      · simp only [attachChild, Option.map_eq_some'] at ha
        obtain ⟨l2, hl2, e⟩ := ha
        subst e
        have hn := attachChild_isNull l path onLeft c l2 hl2
        simp only [leafDepths, hn, Bool.false_and, Bool.false_eq_true, if_false, List.mem_append]
        right
        have := leafDepths_perfect_ne_nil r h hpr (d + 1)
        have e : d + h + 1 = d + 1 + h := by omega
        rw [e]; exact this

/-- C12 fails as stated: the single node is a perfect tree, and with one child
attached to it the only leaf is that child, so `equalPaths` returns true. -/
theorem attach_to_perfect_counterexample :
    ¬ (∀ (t : Node) (h : Nat) (path : List Bool) (onLeft : Bool) (c : Int) (t2 : Node),
      Perfect t h → attachChild t path onLeft c = some t2 → equalPaths t2 = false) := by
  intro hall
  have h1 := hall (Node.mk Node.null 1 Node.null) 1 [] true 2
    (Node.mk (Node.mk Node.null 2 Node.null) 1 Node.null) ⟨rfl, rfl⟩ rfl
  exact absurd h1 (by decide)

/-- C12 (amended): for every perfect binary tree of height at least two and
every one of its leaves, attaching a single child (left or right) to that leaf
and changing nothing else makes `equalPaths` return false. -/
theorem attach_to_perfect (t : Node) (h : Nat) (path : List Bool) (onLeft : Bool) (c : Int)
    (t2 : Node) (hp : Perfect t h) (h2 : 2 ≤ h) (ha : attachChild t path onLeft c = some t2) :
    equalPaths t2 = false := by
  obtain ⟨h', rfl⟩ : ∃ h', h = h' + 2 := ⟨h - 2, by omega⟩
  have a1 := attachChild_new_leaf t (h' + 2) hp path onLeft c t2 ha 0
  have a2 := attachChild_old_leaf t h' hp path onLeft c t2 ha 0
  cases he : equalPaths t2 with
  | false => rfl
  | true =>
    have := (equalPaths_iff_leafDepths t2).1 he _ a1 _ a2
    omega

theorem attach_to_perfect_witness :
    Perfect (Node.mk (Node.mk Node.null 2 Node.null) 1 (Node.mk Node.null 3 Node.null)) 2 ∧
      attachChild (Node.mk (Node.mk Node.null 2 Node.null) 1 (Node.mk Node.null 3 Node.null))
        [false] true 4 =
        some (Node.mk (Node.mk Node.null 2 Node.null) 1
          (Node.mk (Node.mk Node.null 4 Node.null) 3 Node.null)) ∧
      equalPaths (Node.mk (Node.mk Node.null 2 Node.null) 1
          (Node.mk (Node.mk Node.null 4 Node.null) 3 Node.null)) = false :=
  ⟨⟨⟨rfl, rfl⟩, ⟨rfl, rfl⟩⟩, rfl,
    attach_to_perfect (Node.mk (Node.mk Node.null 2 Node.null) 1 (Node.mk Node.null 3 Node.null))
      2 [false] true 4 _ ⟨⟨rfl, rfl⟩, ⟨rfl, rfl⟩⟩ (by decide) rfl⟩

end EqualPaths

namespace AVL
variable {K V : Type}

theorem balanceOf_eq_balanceFactor {t : Tree K V}
    (h : -128 ≤ balanceFactor t ∧ balanceFactor t ≤ 127) : balanceOf t = balanceFactor t := by
  cases t with
  | nil => rfl
  | node l k v b r =>
    simp only [balanceFactor] at h
    simp only [balanceOf, balanceFactor]
    exact toInt8_eq h.1 (by omega)

/-- The node `rebalanceUpwards` hands to `rebalanceNode` has just had its balance
set from `balanceOf`, so its stored balance is accurate whenever the height
difference is in the `int8_t` range. -/
theorem balanceAccurate_of_setBalance (l r : Tree K V) (k : K) (v : V) (b : Int)
    (h : -128 ≤ balanceFactor (Tree.node l k v b r) ∧ balanceFactor (Tree.node l k v b r) ≤ 127) :
    BalanceAccurate (Tree.node l k v (balanceOf (Tree.node l k v b r)) r) := by
  have e := balanceOf_eq_balanceFactor h
  simp only [balanceFactor] at h e
  simp only [BalanceAccurate, storedBalance, balanceFactor, e]
  exact ⟨trivial, h.1, h.2⟩

/-- C18: `rebalanceNode` follows the four-case table on every node n it is
called on: the stored balance of n is the one `rebalanceUpwards` has just set
from the heights (an `int8_t` equal to height(left) - height(right)), and the
balance of a child is what `balanceOf` computes for it, its height difference
being in the `int8_t` range.  With balance > 1 the left child exists; when its
balance is ≥ 0 only `rotateRight` is done and the former left child is on top,
when it is < 0 `rotateLeft` on the left child then `rotateRight` are done and
the former left-right grandchild is on top.  With balance < -1 the mirror
image.  Otherwise n is returned unchanged.  A heavy child with balance 0 gets
the single rotation. -/
theorem rebalanceNode_table (l r : Tree K V) (k : K) (v : V) (b : Int)
    (hn : BalanceAccurate (Tree.node l k v b r))
    (hl : -128 ≤ balanceFactor l ∧ balanceFactor l ≤ 127)
    (hr : -128 ≤ balanceFactor r ∧ balanceFactor r ≤ 127) :
    (1 < b → ∃ ll lk lv lb lr, l = Tree.node ll lk lv lb lr ∧
      (0 ≤ balanceOf l →
        rebalanceNode (Tree.node l k v b r) = rotateRight (Tree.node l k v b r) ∧
        rebalanceNode (Tree.node l k v b r) = Tree.node ll lk lv lb (Tree.node lr k v b r)) ∧
      (balanceOf l < 0 → ∃ a gk gv gb c, lr = Tree.node a gk gv gb c ∧
        rebalanceNode (Tree.node l k v b r) =
          rotateRight (Tree.node (rotateLeft l) k v b r) ∧
        rebalanceNode (Tree.node l k v b r) =
          Tree.node (Tree.node ll lk lv lb a) gk gv gb (Tree.node c k v b r))) ∧
    (b < -1 → ∃ rl rk rv rb rr, r = Tree.node rl rk rv rb rr ∧
      (balanceOf r ≤ 0 →
        rebalanceNode (Tree.node l k v b r) = rotateLeft (Tree.node l k v b r) ∧
        rebalanceNode (Tree.node l k v b r) = Tree.node (Tree.node l k v b rl) rk rv rb rr) ∧
      (0 < balanceOf r → ∃ a gk gv gb c, rl = Tree.node a gk gv gb c ∧
        rebalanceNode (Tree.node l k v b r) =
          rotateLeft (Tree.node l k v b (rotateRight r)) ∧
        rebalanceNode (Tree.node l k v b r) =
          Tree.node (Tree.node l k v b a) gk gv gb (Tree.node c rk rv rb rr))) ∧
    (-1 ≤ b → b ≤ 1 → rebalanceNode (Tree.node l k v b r) = Tree.node l k v b r) := by
  have hbl := balanceOf_eq_balanceFactor hl
  have hbr := balanceOf_eq_balanceFactor hr
  obtain ⟨hn1, _, _⟩ := hn
  simp only [storedBalance, balanceFactor] at hn1
  refine ⟨fun hb => ?_, fun hb => ?_, fun h1 h2 => ?_⟩
  · cases l with
    | nil => simp only [heightNode] at hn1; omega
    | node ll lk lv lb lr =>
      refine ⟨ll, lk, lv, lb, lr, rfl, fun h0 => ?_, fun h0 => ?_⟩
      · simp only [rebalanceNode, if_pos hb, if_neg (not_lt.2 h0)]
        exact ⟨trivial, rfl⟩
      · cases lr with
        | nil =>
          rw [hbl] at h0
          simp only [balanceFactor, heightNode] at h0
          omega
        | node a gk gv gb c =>
          refine ⟨a, gk, gv, gb, c, rfl, ?_, ?_⟩
          · simp only [rebalanceNode, if_pos hb, if_pos h0]
          · simp only [rebalanceNode, if_pos hb, if_pos h0]
            rfl
  · cases r with
    | nil => simp only [heightNode] at hn1; omega
    | node rl rk rv rb rr =>
      have hb1 : ¬ b > 1 := by omega
      refine ⟨rl, rk, rv, rb, rr, rfl, fun h0 => ?_, fun h0 => ?_⟩
      · simp only [rebalanceNode, if_neg hb1, if_pos hb, gt_iff_lt, if_neg (not_lt.2 h0)]
        exact ⟨trivial, rfl⟩
      · cases rl with
        | nil =>
          rw [hbr] at h0
          simp only [balanceFactor, heightNode] at h0
          omega
        | node a gk gv gb c =>
          refine ⟨a, gk, gv, gb, c, rfl, ?_, ?_⟩
          · simp only [rebalanceNode, if_neg hb1, if_pos hb, gt_iff_lt, if_pos h0]
          · simp only [rebalanceNode, if_neg hb1, if_pos hb, gt_iff_lt, if_pos h0]
            rfl
  · simp only [rebalanceNode, if_neg (show ¬ b > 1 by omega), if_neg (show ¬ b < -1 by omega)]

theorem rebalanceNode_table_witness :
    BalanceAccurate (Tree.node (Tree.node (Tree.node Tree.nil (1 : Nat) () 0 Tree.nil) 2 () 1
        Tree.nil) 3 () 2 Tree.nil) ∧
      (-128 ≤ balanceFactor (Tree.node (Tree.node Tree.nil (1 : Nat) () 0 Tree.nil) 2 () 1
          Tree.nil) ∧
        balanceFactor (Tree.node (Tree.node Tree.nil (1 : Nat) () 0 Tree.nil) 2 () 1
          Tree.nil) ≤ 127) ∧
      (-128 ≤ balanceFactor (Tree.nil : Tree Nat Unit) ∧
        balanceFactor (Tree.nil : Tree Nat Unit) ≤ 127) ∧
      rebalanceNode (Tree.node (Tree.node (Tree.node Tree.nil (1 : Nat) () 0 Tree.nil) 2 () 1
        Tree.nil) 3 () 2 Tree.nil) =
      Tree.node (Tree.node Tree.nil 1 () 0 Tree.nil) 2 () 1 (Tree.node Tree.nil 3 () 2 Tree.nil) := by
  refine ⟨by decide, by decide, by decide, ?_⟩
  obtain ⟨ll, lk, lv, lb, lr, e, h1, _⟩ :=
    (rebalanceNode_table (Tree.node (Tree.node Tree.nil (1 : Nat) () 0 Tree.nil) 2 () 1 Tree.nil)
      Tree.nil 3 () 2 (by decide) (by decide) (by decide)).1 (by decide)
  cases e
  exact (h1 (by decide)).2

end AVL


namespace AVL
variable {K V : Type}

theorem rebalanceUpwards_append (t : Tree K V) (p q : List (Frame K V)) :
    rebalanceUpwards t (p ++ q) = rebalanceUpwards (rebalanceUpwards t p) q := by
  induction p generalizing t with
  | nil => rfl
  | cons f fs ih => exact ih _

/-- The walk from the old parent of the rightmost node up to the top of the
subtree is the recursive splice. -/
theorem rightmost_spliceMax (t : Tree K V) (q : List (Frame K V)) (pl : Tree K V) (pk : K)
    (pv : V) (pb : Int) (pr : Tree K V) (sp : List (Frame K V))
    (h : rightmost t q = some (Tree.node pl pk pv pb pr, sp)) :
    ∃ inner, sp = inner ++ q ∧ pr = Tree.nil ∧ rebalanceUpwards pl inner = spliceMax t ∧
      maxPair t = some (pk, pv) := by
  induction t generalizing q with
  | nil => simp [rightmost] at h
  | node l k v b r _ ihr =>
    cases r with
    | nil =>
      simp only [rightmost, Option.some.injEq, Prod.mk.injEq, Tree.node.injEq] at h
      obtain ⟨⟨rfl, rfl, rfl, rfl, rfl⟩, rfl⟩ := h
      exact ⟨[], rfl, rfl, rfl, rfl⟩
    | node rl rk rv rb rr =>
      rw [rightmost] at h
      obtain ⟨inner, e1, e2, e3, e4⟩ := ihr _ h
      refine ⟨inner ++ [⟨Side.right, k, v, b, l⟩], by rw [e1]; simp, e2, ?_, ?_⟩
      · rw [rebalanceUpwards_append, e3]
        rfl
      · rw [maxPair]; exact e4

section Ordered
variable [LinearOrder K]

theorem internalFind_removeViaPredecessor (key : K) (t : Tree K V) (q : List (Frame K V))
    (l r : Tree K V) (k : K) (v : V) (b : Int) (path : List (Frame K V)) (pk : K) (pv : V)
    (h : internalFind key t q = some (Tree.node l k v b r, path))
    (hm : maxPair l = some (pk, pv)) :
    ∃ inner, path = inner ++ q ∧
      rebalanceUpwards (rebalanceStep (Tree.node (spliceMax l) pk pv b r)) inner =
        removeViaPredecessor key t := by
  induction t generalizing q with
  | nil => simp [internalFind] at h
  | node l1 k1 v1 b1 r1 ihl ihr =>
    rw [internalFind] at h
    rw [removeViaPredecessor]
    by_cases c1 : key = k1
    · rw [if_pos c1] at h
      simp only [Option.some.injEq, Prod.mk.injEq, Tree.node.injEq] at h
      obtain ⟨⟨rfl, rfl, rfl, rfl, rfl⟩, rfl⟩ := h
      rw [if_pos c1, hm]
      exact ⟨[], rfl, rfl⟩
    · rw [if_neg c1] at h
      rw [if_neg c1]
      by_cases c2 : key < k1
      · rw [if_pos c2] at h
        rw [if_pos c2]
        obtain ⟨inner, e1, e2⟩ := ihl _ h
        refine ⟨inner ++ [⟨Side.left, k1, v1, b1, r1⟩], by rw [e1]; simp, ?_⟩
        rw [rebalanceUpwards_append, e2]
        rfl
      · rw [if_neg c2] at h
        rw [if_neg c2]
        obtain ⟨inner, e1, e2⟩ := ihr _ h
        refine ⟨inner ++ [⟨Side.right, k1, v1, b1, l1⟩], by rw [e1]; simp, ?_⟩
        rw [rebalanceUpwards_append, e2]
        rfl

theorem internalFind_of_hasTwoChildren (key : K) (t : Tree K V) (q : List (Frame K V))
    (h : hasTwoChildren key t = true) :
    ∃ l v b r path, internalFind key t q = some (Tree.node l key v b r, path) ∧
      l.isNil = false ∧ r.isNil = false := by
  induction t generalizing q with
  | nil => simp [hasTwoChildren] at h
  | node l1 k1 v1 b1 r1 ihl ihr =>
    rw [hasTwoChildren] at h
    rw [internalFind]
    by_cases c1 : key = k1
    · rw [if_pos c1] at h
      rw [if_pos c1]
      subst c1
      simp only [Bool.and_eq_true, Bool.not_eq_true'] at h
      exact ⟨l1, v1, b1, r1, q, rfl, h.1, h.2⟩
    · rw [if_neg c1] at h
      rw [if_neg c1]
      by_cases c2 : key < k1
      · rw [if_pos c2] at h
        rw [if_pos c2]
        exact ihl _ h
      · rw [if_neg c2] at h
        rw [if_neg c2]
        exact ihr _ h

/-- C19: for a valid tree and a key whose node has two children, `remove` works
through the in-order predecessor: with p the rightmost node of the left subtree
(it has no right child), the result is the upward walk started at the old
parent of p after p's left child has taken the place of p's node and p's
(key, value) has been put at the position of the key; this equals the
specification's removal by predecessor.  On the tree built by inserting 1..7,
`remove 4` gives in-order keys 1, 2, 3, 5, 6, 7 and root 3 (the predecessor),
not 5 (the successor). -/
theorem remove_two_children (t : Tree K V) (k : K) (_h : Valid t)
    (h2 : hasTwoChildren k t = true) :
    remove t k = removeViaPredecessor k t ∧
    (∃ l v b r path pl pk pv pb spine,
      internalFind k t [] = some (Tree.node l k v b r, path) ∧
      predecessor (Tree.node l k v b r) = some (Tree.node pl pk pv pb Tree.nil, spine) ∧
      maxPair l = some (pk, pv) ∧
      remove t k = rebalanceUpwards pl (spine ++ ⟨Side.left, pk, pv, b, r⟩ :: path)) ∧
    (keys (remove (([1, 2, 3, 4, 5, 6, 7] : List Nat).foldl (fun t k => insert t (k, ()))
        (Tree.nil : Tree Nat Unit)) 4) = [1, 2, 3, 5, 6, 7] ∧
      rootKey (remove (([1, 2, 3, 4, 5, 6, 7] : List Nat).foldl (fun t k => insert t (k, ()))
        (Tree.nil : Tree Nat Unit)) 4) = some 3) := by
  obtain ⟨l, v, b, r, path, hf, hl, hr⟩ := internalFind_of_hasTwoChildren k t [] h2
  cases l with
  | nil => simp [Tree.isNil] at hl
  | node ll lk lv lb lr =>
    obtain ⟨⟨p, spine⟩, hp⟩ := rightmost_isSome ll lk lv lb lr []
    obtain ⟨⟨pl, pk, pv, pb, rfl⟩, _, _⟩ := rightmost_some _ _ _ _ hp
    obtain ⟨inner, e1, _, e3, e4⟩ := rightmost_spliceMax _ _ _ _ _ _ _ _ hp
    obtain ⟨inner2, f1, f2⟩ :=
      internalFind_removeViaPredecessor k t [] _ r k v b path pk pv hf e4
    have e : remove t k =
        rebalanceUpwards pl (spine ++ ⟨Side.left, pk, pv, b, r⟩ :: path) := by
      have two : (!(Tree.node ll lk lv lb lr).isNil && !r.isNil) = true := by
        rw [hl, hr]; rfl
      simp only [remove, hf, two, if_true, predecessor, hp, nodeSwap_eq]
      cases pl <;> simp [Tree.isNil]
    refine ⟨?_, ⟨_, v, b, r, path, pl, pk, pv, pb, spine, hf, hp, e4, e⟩, by decide⟩
    rw [e, ← f2]
    simp only [List.append_nil] at e1 f1
    have e5 : spine ++ (⟨Side.left, pk, pv, b, r⟩ : Frame K V) :: path =
        (spine ++ [⟨Side.left, pk, pv, b, r⟩]) ++ path := by simp
    rw [e5, rebalanceUpwards_append, rebalanceUpwards_append, e1, e3, f1]
    rfl

theorem remove_two_children_witness :
    Valid (([1, 2, 3, 4, 5, 6, 7] : List Nat).foldl (fun t k => insert t (k, ()))
        (Tree.nil : Tree Nat Unit)) ∧
      hasTwoChildren 4 (([1, 2, 3, 4, 5, 6, 7] : List Nat).foldl (fun t k => insert t (k, ()))
        (Tree.nil : Tree Nat Unit)) = true ∧
      remove (([1, 2, 3, 4, 5, 6, 7] : List Nat).foldl (fun t k => insert t (k, ()))
        (Tree.nil : Tree Nat Unit)) 4 =
      removeViaPredecessor 4 (([1, 2, 3, 4, 5, 6, 7] : List Nat).foldl
        (fun t k => insert t (k, ())) (Tree.nil : Tree Nat Unit)) :=
  ⟨by decide, by decide, (remove_two_children _ 4 (by decide) (by decide)).1⟩

end Ordered
end AVL

namespace AVL
variable {K V : Type}

theorem rebalanceStep_of_balanced (l r : Tree K V) (k : K) (v : V) (b : Int)
    (h1 : heightNode l ≤ heightNode r + 1) (h2 : heightNode r ≤ heightNode l + 1) :
    rebalanceStep (Tree.node l k v b r) =
      Tree.node l k v ((heightNode l : Int) - (heightNode r : Int)) r := by
  have hb := balanceOf_node_eq l r k v b (by omega) (by omega)
  simp only [rebalanceStep, hb]
  rw [if_neg (by rintro (h | h) <;> omega)]

/-- A rotation fix-up at a node whose heavy child is two higher than the other
child and has a nonzero balance gives a subtree as high as the heavy child. -/
theorem rebalanceStep_restores (l r : Tree K V) (k : K) (v : V) (b : Int)
    (hl : Balanced l) (hr : Balanced r) :
    (heightNode l = heightNode r + 2 → balanceOf l ≠ 0 →
      heightNode (rebalanceStep (Tree.node l k v b r)) = heightNode l) ∧
    (heightNode r = heightNode l + 2 → balanceOf r ≠ 0 →
      heightNode (rebalanceStep (Tree.node l k v b r)) = heightNode r) := by
  constructor
  · intro hh hz
    have hb := balanceOf_node_eq l r k v b (by omega) (by omega)
    have c1 : (heightNode l : Int) - (heightNode r : Int) > 1 := by omega
    simp only [rebalanceStep, hb]
    rw [if_pos (Or.inl c1)]
    simp only [rebalanceNode, if_pos c1]
    cases l with
    | nil => simp [heightNode] at hh
    | node ll lk lv lb lr =>
      have hbl := balanceOf_node_eq ll lr lk lv lb (by have := hl.2.2.1; omega)
        (by have := hl.2.2.1; omega)
      obtain ⟨hll, hlr, hlbnd, hlb⟩ := hl
      rw [hbl] at hz ⊢
      by_cases c2 : (heightNode ll : Int) - (heightNode lr : Int) < 0
      · rw [if_pos c2]
        cases lr with
        | nil => simp [heightNode] at c2; omega
        | node lrl lrk lrv lrb lrr =>
          obtain ⟨h5, h6, h7, _⟩ := hlr
          simp only [rotateLeft, rotateRight, heightNode_fixHeightAndBalance]
          simp only [heightNode] at *
          omega
      · rw [if_neg c2]
        simp only [rotateRight, heightNode_fixHeightAndBalance]
        simp only [heightNode] at *
        omega
  · intro hh hz
    have hb := balanceOf_node_eq l r k v b (by omega) (by omega)
    have c1 : ¬ (heightNode l : Int) - (heightNode r : Int) > 1 := by omega
    have c3 : (heightNode l : Int) - (heightNode r : Int) < -1 := by omega
    simp only [rebalanceStep, hb]
    rw [if_pos (Or.inr c3)]
    simp only [rebalanceNode, if_neg c1, if_pos c3]
    cases r with
    | nil => simp [heightNode] at hh
    | node rl rk rv rb rr =>
      have hbr := balanceOf_node_eq rl rr rk rv rb (by have := hr.2.2.1; omega)
        (by have := hr.2.2.1; omega)
      obtain ⟨hrl, hrr, hrbnd, hrb⟩ := hr
      rw [hbr] at hz ⊢
      by_cases c4 : (heightNode rl : Int) - (heightNode rr : Int) > 0
      · rw [if_pos c4]
        cases rl with
        | nil => simp [heightNode] at c4; omega
        | node rll rlk rlv rlb rlr =>
          obtain ⟨h5, h6, h7, _⟩ := hrl
          simp only [rotateLeft, rotateRight, heightNode_fixHeightAndBalance]
          simp only [heightNode] at *
          omega
      · rw [if_neg c4]
        simp only [rotateLeft, heightNode_fixHeightAndBalance]
        simp only [heightNode] at *
        omega

/-- Above a position whose subtree has kept its height the walk finds every
recomputed balance within -1..1. -/
theorem rebalanceLog_same_height (path : List (Frame K V)) (t : Tree K V) (h0 : Nat)
    (hc : CtxBalanced path h0) (ht : Balanced t) (hh : heightNode t = h0) :
    rebalanceLog t h0 path = [] := by
  induction path generalizing t h0 with
  | nil => rfl
  | cons f fs ih =>
    obtain ⟨s, fk, fv, fb, sib⟩ := f
    obtain ⟨hs, hbnd, _, hrest⟩ := hc
    simp only at hs hbnd hrest
    rw [rebalanceLog]
    cases s
    · simp only [Frame.plug]
      have hb := balanceOf_node_eq t sib fk fv fb (by omega) (by omega)
      obtain ⟨r1, _, _, r4⟩ := rebalanceStep_spec t sib fk fv fb ht hs (by omega) (by omega)
      rw [hb, if_neg (by rintro (h | h) <;> omega), List.nil_append]
      exact ih _ _ hrest r1 (by rw [r4 (by omega) (by omega), hh])
    · simp only [Frame.plug]
      have hb := balanceOf_node_eq sib t fk fv fb (by omega) (by omega)
      obtain ⟨r1, _, _, r4⟩ := rebalanceStep_spec sib t fk fv fb hs ht (by omega) (by omega)
      rw [hb, if_neg (by rintro (h | h) <;> omega), List.nil_append]
      exact ih _ _ hrest r1 (by rw [r4 (by omega) (by omega), hh, max_comm])

/-- Above a position whose subtree has grown by one and has a nonzero root
balance (or is the new leaf) the walk calls `rebalanceNode` at most once, and
that fix-up gives back the height the position had before. -/
theorem rebalanceLog_grown (path : List (Frame K V)) (t : Tree K V) (h0 : Nat)
    (hc : CtxBalanced path h0) (ht : Balanced t) (hh : heightNode t = h0 + 1)
    (hz : balanceOf t ≠ 0 ∨ h0 = 0) :
    (rebalanceLog t h0 path).length ≤ 1 ∧ ∀ e ∈ rebalanceLog t h0 path, e.2 = e.1 := by
  induction path generalizing t h0 with
  | nil => simp [rebalanceLog]
  | cons f fs ih =>
    obtain ⟨s, fk, fv, fb, sib⟩ := f
    obtain ⟨hs, hbnd, _, hrest⟩ := hc
    simp only at hs hbnd hrest
    rw [rebalanceLog]
    cases s
    · simp only [Frame.plug]
      have hb := balanceOf_node_eq t sib fk fv fb (by omega) (by omega)
      obtain ⟨r1, _, _, r4⟩ := rebalanceStep_spec t sib fk fv fb ht hs (by omega) (by omega)
      rw [hb]
      rcases (by omega : heightNode sib = h0 + 1 ∨ heightNode sib = h0 ∨
        heightNode sib + 1 = h0) with e | e | e
      · rw [if_neg (by rintro (h | h) <;> omega), List.nil_append,
          rebalanceLog_same_height fs _ _ hrest r1 (by rw [r4 (by omega) (by omega)]; omega)]
        simp
      · rw [if_neg (by rintro (h | h) <;> omega), List.nil_append]
        have e2 := rebalanceStep_of_balanced t sib fk fv fb (by omega) (by omega)
        refine ih _ _ hrest r1 (by rw [r4 (by omega) (by omega)]; omega) (Or.inl ?_)
        rw [e2, balanceOf_node_eq t sib fk fv _ (by omega) (by omega)]
        omega
      · have hz1 : balanceOf t ≠ 0 := by
          rcases hz with hz | hz
          · exact hz
          · omega
        have e3 := (rebalanceStep_restores t sib fk fv fb ht hs).1 (by omega) hz1
        rw [if_pos (Or.inl (by omega)),
          rebalanceLog_same_height fs _ _ hrest r1 (by rw [e3]; omega)]
        simp only [List.append_nil, List.length_singleton, le_refl, List.mem_singleton,
          true_and]
        intro e' he'
        rw [he', e3]
        simp only
        omega
    · simp only [Frame.plug]
      have hb := balanceOf_node_eq sib t fk fv fb (by omega) (by omega)
      obtain ⟨r1, _, _, r4⟩ := rebalanceStep_spec sib t fk fv fb hs ht (by omega) (by omega)
      rw [hb]
      rcases (by omega : heightNode sib = h0 + 1 ∨ heightNode sib = h0 ∨
        heightNode sib + 1 = h0) with e | e | e
      · rw [if_neg (by rintro (h | h) <;> omega), List.nil_append,
          rebalanceLog_same_height fs _ _ hrest r1 (by rw [r4 (by omega) (by omega)]; omega)]
        simp
      · rw [if_neg (by rintro (h | h) <;> omega), List.nil_append]
        have e2 := rebalanceStep_of_balanced sib t fk fv fb (by omega) (by omega)
        refine ih _ _ hrest r1 (by rw [r4 (by omega) (by omega)]; omega) (Or.inl ?_)
        rw [e2, balanceOf_node_eq sib t fk fv _ (by omega) (by omega)]
        omega
      · have hz1 : balanceOf t ≠ 0 := by
          rcases hz with hz | hz
          · exact hz
          · omega
        have e3 := (rebalanceStep_restores sib t fk fv fb hs ht).2 (by omega) hz1
        rw [if_pos (Or.inr (by omega)),
          rebalanceLog_same_height fs _ _ hrest r1 (by rw [e3]; omega)]
        simp only [List.append_nil, List.length_singleton, le_refl, List.mem_singleton,
          true_and]
        intro e' he'
        rw [he', e3]
        simp only
        omega

section Ordered
variable [LinearOrder K]

theorem insertLog_spec (k : K) (v : V) (t : Tree K V) (path : List (Frame K V))
    (ht : Balanced t) (hc : CtxBalanced path (heightNode t)) :
    (insertLog k v t path).length ≤ 1 ∧ ∀ e ∈ insertLog k v t path, e.2 = e.1 := by
  induction t generalizing path with
  | nil =>
    rw [insertLog]
    exact rebalanceLog_grown path _ 0 hc (by simp [Balanced, heightNode]) (by simp [heightNode])
      (Or.inr rfl)
  | node l k1 v1 b r ihl ihr =>
    rw [insertLog]
    obtain ⟨hl, hr, hbnd, hb⟩ := ht
    simp only [heightNode] at hc
    split_ifs with c1 c2
    · simp
    · refine ihl _ hl ?_
      simp only [CtxBalanced]
      exact ⟨hr, hbnd, hb, hc⟩
    · refine ihr _ hr ?_
      simp only [CtxBalanced]
      refine ⟨hl, ⟨by omega, by omega⟩, hb, ?_⟩
      rw [max_comm]
      exact hc

/-- C20: on a valid tree and a key that is not in it, the upward walk run by
`insert` calls `rebalanceNode` at most once (so every other ancestor up to the
root has a recomputed balance within -1..1), and the subtree rooted at the
returned pivot is as high as the subtree at that position was before the
insertion. -/
theorem insert_rebalances_once (t : Tree K V) (k : K) (v : V) (h : Valid t)
    (_hk : k ∉ keys t) :
    (insertLog k v t []).length ≤ 1 ∧ ∀ e ∈ insertLog k v t [], e.2 = e.1 :=
  insertLog_spec k v t [] h.2 trivial

theorem insert_rebalances_once_witness :
    Valid (Tree.node Tree.nil (10 : Nat) (0 : Nat) (-1) (Tree.node Tree.nil 20 0 0 Tree.nil)) ∧
      30 ∉ keys (Tree.node Tree.nil (10 : Nat) (0 : Nat) (-1)
        (Tree.node Tree.nil 20 0 0 Tree.nil)) ∧
      (insertLog 30 0 (Tree.node Tree.nil (10 : Nat) (0 : Nat) (-1)
        (Tree.node Tree.nil 20 0 0 Tree.nil)) []).length ≤ 1 :=
  ⟨by decide, by decide, (insert_rebalances_once _ 30 0 (by decide) (by decide)).1⟩

end Ordered
end AVL

namespace AVL
variable {K V : Type}

namespace Linked

theorem parentOK_setParent (t : LTree K V) (p q : Option K) (h : ParentOK q t) :
    ParentOK p (setParent t p) := by
  cases t with
  | nil => trivial
  | node l k v b p0 r => exact ⟨rfl, h.2.1, h.2.2⟩

theorem parentOK_fixHeightAndBalance (t : LTree K V) (par : Option K) (h : ParentOK par t) :
    ParentOK par (fixHeightAndBalance t).1 := by
  induction t generalizing par with
  | nil => trivial
  | node l k v b p r ihl ihr =>
    obtain ⟨h1, h2, h3⟩ := h
    exact ⟨h1, ihl _ h2, ihr _ h3⟩

/-- The rotation leaves the subtree in the slot consistent with the parent of the
slot: the pivot, the rotated node and the transplanted subtree all store their
new parents. -/
theorem parentOK_rotateLeft (t : LTree K V) (par : Option K) (h : ParentOK par t) :
    ParentOK par (rotateLeft t) := by
  cases t with
  | nil => trivial
  | node a k v b p r =>
    cases r with
    | nil => exact h
    | node bl rk rv rb rp c =>
      obtain ⟨h1, h2, _, h4, h5⟩ := h
      exact ⟨h1, ⟨rfl, h2, parentOK_setParent bl _ _ h4⟩, h5⟩

theorem parentOK_rotateRight (t : LTree K V) (par : Option K) (h : ParentOK par t) :
    ParentOK par (rotateRight t) := by
  cases t with
  | nil => trivial
  | node l k v b p c =>
    cases l with
    | nil => exact h
    | node a lk lv lb lp br =>
      obtain ⟨h1, ⟨_, h3, h4⟩, h5⟩ := h
      exact ⟨h1, h3, ⟨rfl, parentOK_setParent br _ _ h4, h5⟩⟩

theorem parentOK_rebalanceNode (t : LTree K V) (par : Option K) (h : ParentOK par t) :
    ParentOK par (rebalanceNode t) := by
  cases t with
  | nil => trivial
  | node l k v b p r =>
    obtain ⟨h1, h2, h3⟩ := h
    simp only [rebalanceNode]
    split_ifs
    · exact parentOK_rotateRight _ _ ⟨h1, parentOK_rotateLeft _ _ h2, h3⟩
    · exact parentOK_rotateRight _ _ ⟨h1, h2, h3⟩
    · exact parentOK_rotateLeft _ _ ⟨h1, h2, parentOK_rotateRight _ _ h3⟩
    · exact parentOK_rotateLeft _ _ ⟨h1, h2, h3⟩
    · exact ⟨h1, h2, h3⟩

theorem parentOK_rebalanceStep (t : LTree K V) (par : Option K) (h : ParentOK par t) :
    ParentOK par (rebalanceStep t) := by
  cases t with
  | nil => trivial
  | node l k v b p r =>
    simp only [rebalanceStep]
    split_ifs
    · exact parentOK_fixHeightAndBalance _ _ (parentOK_rebalanceNode _ _ h)
    · exact h

theorem parentOK_plug_iff (f : LFrame K V) (t : LTree K V) (par : Option K) :
    ParentOK par (f.plug t) ↔
      f.parent = par ∧ ParentOK (some f.key) t ∧ ParentOK (some f.key) f.sibling := by
  obtain ⟨s, fk, fv, fb, fp, sib⟩ := f
  cases s
  · simp only [LFrame.plug, ParentOK]
  · simp only [LFrame.plug, ParentOK]
    tauto

theorem parentOK_plugAll_iff (path : List (LFrame K V)) (t : LTree K V) (top : Option K) :
    ParentOK top (plugAll t path) ↔
      ParentOK (holeParent top path) t ∧ CtxParentOK top path := by
  induction path generalizing t with
  | nil => simp [plugAll, holeParent, CtxParentOK]
  | cons f fs ih =>
    rw [plugAll, ih, parentOK_plug_iff]
    simp only [holeParent, CtxParentOK]
    tauto

/-- The upward walk keeps parent links consistent. -/
theorem parentOK_rebalanceUpwards (path : List (LFrame K V)) (t : LTree K V) (top : Option K)
    (hc : CtxParentOK top path) (ht : ParentOK (holeParent top path) t) :
    ParentOK top (rebalanceUpwards t path) := by
  induction path generalizing t with
  | nil => exact ht
  | cons f fs ih =>
    obtain ⟨h1, h2, h3⟩ := hc
    rw [rebalanceUpwards]
    refine ih _ h3 (parentOK_rebalanceStep _ _ ?_)
    rw [parentOK_plug_iff]
    exact ⟨h2, ht, h1⟩

theorem holeParent_append (top : Option K) (p q : List (LFrame K V)) :
    holeParent top (p ++ q) = holeParent (holeParent top q) p := by
  cases p <;> rfl

theorem ctxParentOK_append (top : Option K) (p q : List (LFrame K V)) :
    CtxParentOK top (p ++ q) ↔ CtxParentOK (holeParent top q) p ∧ CtxParentOK top q := by
  induction p with
  | nil => simp [CtxParentOK]
  | cons f fs ih =>
    show (ParentOK (some f.key) f.sibling ∧ f.parent = holeParent top (fs ++ q) ∧
      CtxParentOK top (fs ++ q)) ↔ _
    rw [ih, holeParent_append]
    simp only [CtxParentOK]
    tauto

theorem linked_plugAll_append (t : LTree K V) (p q : List (LFrame K V)) :
    plugAll t (p ++ q) = plugAll (plugAll t p) q := by
  induction p generalizing t with
  | nil => rfl
  | cons f fs ih => exact ih (f.plug t)

theorem holeParent_setTopParent (x y : Option K) (sp : List (LFrame K V)) :
    holeParent x (setTopParent sp y) = holeParent x sp := by
  cases sp with
  | nil => rfl
  | cons f fs =>
    cases fs with
    | nil => rfl
    | cons g gs => rfl

theorem length_setTopParent (y : Option K) (sp : List (LFrame K V)) :
    (setTopParent sp y).length = sp.length := by
  induction sp with
  | nil => rfl
  | cons f fs ih =>
    cases fs with
    | nil => rfl
    | cons g gs => simp only [setTopParent, List.length_cons] at ih ⊢; omega

theorem ctxParentOK_setTopParent (top top2 : Option K) (sp : List (LFrame K V))
    (h : CtxParentOK top sp) : CtxParentOK top2 (setTopParent sp top2) := by
  induction sp with
  | nil => trivial
  | cons f fs ih =>
    cases fs with
    | nil =>
      obtain ⟨h1, _, _⟩ := h
      exact ⟨h1, rfl, trivial⟩
    | cons g gs =>
      obtain ⟨h1, h2, h3⟩ := h
      refine ⟨h1, ?_, ih h3⟩
      rw [holeParent_setTopParent]
      exact h2

theorem linked_rightmost_some (t : LTree K V) (path : List (LFrame K V)) (p : LTree K V)
    (path1 : List (LFrame K V)) (h : rightmost t path = some (p, path1)) :
    (∃ pl pk pv pb pp, p = LTree.node pl pk pv pb pp LTree.nil) ∧
      plugAll p path1 = plugAll t path := by
  induction t generalizing path with
  | nil => simp [rightmost] at h
  | node l k v b q r _ ihr =>
    cases r with
    | nil =>
      simp only [rightmost, Option.some.injEq, Prod.mk.injEq] at h
      obtain ⟨rfl, rfl⟩ := h
      exact ⟨⟨l, k, v, b, q, rfl⟩, rfl⟩
    | node rl rk rv rb rp rr =>
      rw [rightmost] at h
      obtain ⟨h1, h2⟩ := ihr _ h
      exact ⟨h1, by rw [h2]; rfl⟩

theorem linked_nodeSwap_eq (l r pl pr : LTree K V) (k pk : K) (v pv : V) (b pb : Int)
    (par ppar : Option K) (path spine : List (LFrame K V)) :
    nodeSwap (LTree.node l k v b par r, path) (LTree.node pl pk pv pb ppar pr, spine) =
      (LTree.node (setParent pl (some k)) k v pb
          (match spine with
            | [] => some pk
            | _ :: _ => ppar)
          (setParent pr (some k)),
        setTopParent spine (some pk) ++
          ⟨Side.left, pk, pv, b, par, setParent r (some pk)⟩ :: path) := by
  have h : (setTopParent spine (some pk) ++
      (⟨Side.left, pk, pv, pb, par, setParent r (some pk)⟩ : LFrame K V) :: path).get?
        spine.length = some ⟨Side.left, pk, pv, pb, par, setParent r (some pk)⟩ := by
    rw [List.get?_eq_getElem?, List.getElem?_append_right (by rw [length_setTopParent]),
      length_setTopParent]
    simp
  simp only [nodeSwap, bstNodeSwap, exchangeBalance, h]
  rw [← length_setTopParent (some pk) spine]
  simp

section Ordered
variable [LinearOrder K]

theorem parentOK_insertLoop (k : K) (v : V) (t : LTree K V) (path : List (LFrame K V))
    (ht : ParentOK (holeParent none path) t) (hc : CtxParentOK none path) :
    ParentOK none (insertLoop k v t path) := by
  induction t generalizing path with
  | nil =>
    rw [insertLoop]
    exact parentOK_rebalanceUpwards path _ none hc ⟨rfl, trivial, trivial⟩
  | node l k1 v1 b p r ihl ihr =>
    obtain ⟨h1, h2, h3⟩ := ht
    rw [insertLoop]
    split_ifs
    · rw [parentOK_plugAll_iff]
      exact ⟨⟨h1, h2, h3⟩, hc⟩
    · exact ihl _ h2 ⟨h3, h1, hc⟩
    · exact ihr _ h3 ⟨h2, h1, hc⟩

theorem consistent_insert (t : LTree K V) (new_item : K × V) (h : Consistent t) :
    Consistent (insert t new_item) := by
  cases t with
  | nil => exact ⟨rfl, trivial, trivial⟩
  | node l k1 v1 b p r =>
    rw [insert]
    exact parentOK_insertLoop _ _ _ [] h trivial

theorem linked_internalFind_some (k : K) (t : LTree K V) (path : List (LFrame K V))
    (n : LTree K V) (path1 : List (LFrame K V))
    (h : internalFind k t path = some (n, path1)) :
    plugAll n path1 = plugAll t path := by
  induction t generalizing path with
  | nil => simp [internalFind] at h
  | node l k1 v1 b p r ihl ihr =>
    rw [internalFind] at h
    split_ifs at h
    · simp only [Option.some.injEq, Prod.mk.injEq] at h
      obtain ⟨rfl, rfl⟩ := h
      rfl
    · rw [ihl _ h]; rfl
    · rw [ihr _ h]; rfl

theorem consistent_remove (t : LTree K V) (key : K) (h : Consistent t) :
    Consistent (remove t key) := by
  unfold remove
  cases hf : internalFind key t [] with
  | none => exact h
  | some loc =>
    obtain ⟨n, path⟩ := loc
    have hplug := linked_internalFind_some key t [] n path hf
    simp only [plugAll] at hplug
    have hn : ParentOK none (plugAll n path) := by rw [hplug]; exact h
    rw [parentOK_plugAll_iff] at hn
    obtain ⟨hn1, hn2⟩ := hn
    cases n with
    | nil => exact h
    | node l k v b p r =>
      obtain ⟨hp, hl, hr⟩ := hn1
      simp only
      by_cases two : (!l.isNil && !r.isNil) = true
      · rw [if_pos two]
        simp only [predecessor]
        cases hr0 : rightmost l [] with
        | none => exact h
        | some pred =>
          obtain ⟨pn, spine⟩ := pred
          obtain ⟨⟨pl, pk, pv, pb, ppar, rfl⟩, hpl⟩ := linked_rightmost_some l [] pn spine hr0
          simp only [plugAll] at hpl
          have hl2 : ParentOK (some k) (plugAll (LTree.node pl pk pv pb ppar LTree.nil) spine) := by
            rw [hpl]; exact hl
          rw [parentOK_plugAll_iff] at hl2
          obtain ⟨⟨hpp, hpl1, hpr1⟩, hsp⟩ := hl2
          simp only [linked_nodeSwap_eq]
          have hchild : ∀ q, ParentOK q (setParent
              (if (!(setParent pl (some k)).isNil) = true then setParent pl (some k)
                else setParent LTree.nil (some k)) q) := by
            intro q
            refine parentOK_setParent _ _ (some k) ?_
            split_ifs
            · exact parentOK_setParent pl _ _ hpl1
            · exact parentOK_setParent _ _ _ hpr1
          refine parentOK_rebalanceUpwards _ _ none ?_ ?_
          · rw [ctxParentOK_append]
            refine ⟨ctxParentOK_setTopParent _ _ _ hsp, ?_, hp, hn2⟩
            exact parentOK_setParent r _ _ hr
          · rw [holeParent_append, holeParent_setTopParent]
            cases spine with
            | nil => exact hchild _
            | cons f fs =>
              simp only [holeParent] at hpp ⊢
              rw [hpp]
              exact hchild _
      · rw [if_neg two]
        simp only
        rw [hp]
        refine parentOK_rebalanceUpwards path _ none hn2 (parentOK_setParent _ _ (some k) ?_)
        split_ifs
        · exact hl
        · exact hr

end Ordered
/-! ### The two embeddings agree

Dropping the parent references turns every operation of this embedding into
the operation of the embedding without them. -/

theorem erase_setParent (t : LTree K V) (p : Option K) : erase (setParent t p) = erase t := by
  cases t <;> rfl

theorem heightNode_erase (t : LTree K V) : AVL.heightNode (erase t) = heightNode t := by
  induction t with
  | nil => rfl
  | node l k v b p r ihl ihr => simp only [erase, AVL.heightNode, heightNode, ihl, ihr]

theorem balanceOf_erase (t : LTree K V) : AVL.balanceOf (erase t) = balanceOf t := by
  cases t with
  | nil => rfl
  | node l k v b p r => simp only [erase, AVL.balanceOf, balanceOf, heightNode_erase]

theorem erase_fixHeightAndBalance (t : LTree K V) :
    AVL.fixHeightAndBalance (erase t) =
      (erase (fixHeightAndBalance t).1, (fixHeightAndBalance t).2) := by
  induction t with
  | nil => rfl
  | node l k v b p r ihl ihr =>
    simp only [erase, AVL.fixHeightAndBalance, fixHeightAndBalance, ihl, ihr]

theorem erase_rotateLeft (t : LTree K V) : erase (rotateLeft t) = AVL.rotateLeft (erase t) := by
  cases t with
  | nil => rfl
  | node a k v b p r =>
    cases r with
    | nil => rfl
    | node bl rk rv rb rp c =>
      simp only [rotateLeft, erase, AVL.rotateLeft, erase_setParent]

theorem erase_rotateRight (t : LTree K V) :
    erase (rotateRight t) = AVL.rotateRight (erase t) := by
  cases t with
  | nil => rfl
  | node l k v b p c =>
    cases l with
    | nil => rfl
    | node a lk lv lb lp br =>
      simp only [rotateRight, erase, AVL.rotateRight, erase_setParent]

theorem erase_rebalanceNode (t : LTree K V) :
    erase (rebalanceNode t) = AVL.rebalanceNode (erase t) := by
  cases t with
  | nil => rfl
  | node l k v b p r =>
    simp only [rebalanceNode, erase, AVL.rebalanceNode, balanceOf_erase]
    split_ifs <;>
      simp only [erase_rotateLeft, erase_rotateRight, erase]

theorem erase_rebalanceStep (t : LTree K V) :
    erase (rebalanceStep t) = AVL.rebalanceStep (erase t) := by
  cases t with
  | nil => rfl
  | node l k v b p r =>
    have hb : AVL.balanceOf (Tree.node (erase l) k v b (erase r)) =
        balanceOf (LTree.node l k v b p r) := balanceOf_erase (LTree.node l k v b p r)
    simp only [rebalanceStep, erase, AVL.rebalanceStep, hb]
    split_ifs
    · have e := erase_fixHeightAndBalance
        (rebalanceNode (LTree.node l k v (balanceOf (LTree.node l k v b p r)) p r))
      rw [erase_rebalanceNode] at e
      simp only [erase] at e
      rw [e]
    · rfl

theorem erase_plug (f : LFrame K V) (t : LTree K V) :
    erase (f.plug t) = (eraseFrame f).plug (erase t) := by
  obtain ⟨s, fk, fv, fb, fp, sib⟩ := f
  cases s <;> rfl

theorem erase_plugAll (path : List (LFrame K V)) (t : LTree K V) :
    erase (plugAll t path) = AVL.plugAll (erase t) (path.map eraseFrame) := by
  induction path generalizing t with
  | nil => rfl
  | cons f fs ih => simp only [plugAll, List.map_cons, AVL.plugAll, ih, erase_plug]

theorem erase_rebalanceUpwards (path : List (LFrame K V)) (t : LTree K V) :
    erase (rebalanceUpwards t path) =
      AVL.rebalanceUpwards (erase t) (path.map eraseFrame) := by
  induction path generalizing t with
  | nil => rfl
  | cons f fs ih =>
    simp only [rebalanceUpwards, List.map_cons, AVL.rebalanceUpwards, ih, erase_rebalanceStep,
      erase_plug]

theorem map_eraseFrame_setTopParent (sp : List (LFrame K V)) (y : Option K) :
    (setTopParent sp y).map eraseFrame = sp.map eraseFrame := by
  induction sp with
  | nil => rfl
  | cons f fs ih =>
    cases fs with
    | nil => rfl
    | cons g gs =>
      simp only [setTopParent, List.map_cons] at ih ⊢
      rw [ih]

theorem isNil_erase (t : LTree K V) : (erase t).isNil = t.isNil := by
  cases t <;> rfl

theorem erase_rightmost (t : LTree K V) (path : List (LFrame K V)) :
    AVL.rightmost (erase t) (path.map eraseFrame) =
      (rightmost t path).map (fun x => (erase x.1, x.2.map eraseFrame)) := by
  induction t generalizing path with
  | nil => rfl
  | node l k v b p r _ ihr =>
    cases r with
    | nil => rfl
    | node rl rk rv rb rp rr =>
      rw [rightmost]
      rw [← ihr]
      rfl

theorem isNil_setParent (t : LTree K V) (p : Option K) : (setParent t p).isNil = t.isNil := by
  cases t <;> rfl

theorem getParent_of_consistent (t : LTree K V) (h : Consistent t) : getParent t = none := by
  cases t with
  | nil => rfl
  | node l k v b p r => exact h.1

section Ordered
variable [LinearOrder K]

theorem erase_insertLoop (k : K) (v : V) (t : LTree K V) (path : List (LFrame K V)) :
    erase (insertLoop k v t path) = AVL.insertLoop k v (erase t) (path.map eraseFrame) := by
  induction t generalizing path with
  | nil =>
    simp only [insertLoop, erase, AVL.insertLoop, erase_rebalanceUpwards]
  | node l k1 v1 b p r ihl ihr =>
    simp only [insertLoop, erase, AVL.insertLoop]
    split_ifs
    · rw [erase_plugAll]; rfl
    · rw [ihl]; rfl
    · rw [ihr]; rfl

theorem erase_insert (t : LTree K V) (new_item : K × V) :
    erase (insert t new_item) = AVL.insert (erase t) new_item := by
  cases t with
  | nil => rfl
  | node l k1 v1 b p r =>
    simp only [insert, erase, AVL.insert]
    exact erase_insertLoop _ _ _ []

theorem erase_internalFind (k : K) (t : LTree K V) (path : List (LFrame K V)) :
    AVL.internalFind k (erase t) (path.map eraseFrame) =
      (internalFind k t path).map (fun x => (erase x.1, x.2.map eraseFrame)) := by
  induction t generalizing path with
  | nil => rfl
  | node l k1 v1 b p r ihl ihr =>
    simp only [internalFind, erase, AVL.internalFind]
    split_ifs
    · rfl
    · rw [← ihl]; rfl
    · rw [← ihr]; rfl

theorem erase_remove (t : LTree K V) (key : K) :
    erase (remove t key) = AVL.remove (erase t) key := by
  have hfind := erase_internalFind key t []
  simp only [List.map_nil] at hfind
  unfold remove AVL.remove
  rw [hfind]
  cases hf : internalFind key t [] with
  | none => rfl
  | some loc =>
    obtain ⟨n, path⟩ := loc
    cases n with
    | nil => rfl
    | node l k v b p r =>
      simp only [Option.map_some', erase, isNil_erase]
      by_cases two : (!l.isNil && !r.isNil) = true
      · rw [if_pos two, if_pos two]
        have hright := erase_rightmost l []
        simp only [List.map_nil] at hright
        simp only [predecessor, AVL.predecessor, hright]
        cases hr0 : rightmost l [] with
        | none => rfl
        | some pred =>
          obtain ⟨pn, spine⟩ := pred
          obtain ⟨⟨pl, pk, pv, pb, ppar, rfl⟩, _⟩ := linked_rightmost_some l [] pn spine hr0
          simp only [Option.map_some', erase, linked_nodeSwap_eq, AVL.nodeSwap_eq,
            erase_rebalanceUpwards, erase_setParent, List.map_append, List.map_cons,
            map_eraseFrame_setTopParent, isNil_setParent, isNil_erase]
          congr 1
          · cases pl <;> rfl
          · simp only [eraseFrame, erase_setParent]
      · rw [if_neg two, if_neg two]
        simp only [erase_rebalanceUpwards, erase_setParent, isNil_erase]
        congr 1
        cases l <;> rfl

/-- C16: on a tree with consistent parent links, `insert` and `remove` give a tree
with consistent parent links: every node stores as parent the node whose left
or right child it is, and the parent of the root is absent.  In particular a
rotation leaves the subtree in the slot of the rotated node consistent with
the parent of that slot (absent when the rotated node was the root), its pivot
storing that parent.  The operations are those of the embedding without
parent references once the references are dropped. -/
theorem parent_links_consistent (t : LTree K V) (h : Consistent t) :
    (∀ new_item : K × V, Consistent (insert t new_item) ∧
      getParent (insert t new_item) = none ∧
      erase (insert t new_item) = AVL.insert (erase t) new_item) ∧
    (∀ key : K, Consistent (remove t key) ∧
      getParent (remove t key) = none ∧
      erase (remove t key) = AVL.remove (erase t) key) ∧
    (∀ (x : LTree K V) (par : Option K), ParentOK par x →
      ParentOK par (rotateLeft x) ∧ ParentOK par (rotateRight x) ∧
      erase (rotateLeft x) = AVL.rotateLeft (erase x) ∧
      erase (rotateRight x) = AVL.rotateRight (erase x)) :=
  ⟨fun new_item => ⟨consistent_insert t new_item h,
      getParent_of_consistent _ (consistent_insert t new_item h), erase_insert t new_item⟩,
    fun key => ⟨consistent_remove t key h,
      getParent_of_consistent _ (consistent_remove t key h), erase_remove t key⟩,
    fun x par hx => ⟨parentOK_rotateLeft x par hx, parentOK_rotateRight x par hx,
      erase_rotateLeft x, erase_rotateRight x⟩⟩

theorem parent_links_consistent_witness :
    Consistent (LTree.node (LTree.node LTree.nil (1 : Nat) () 0 (some 2) LTree.nil) 2 () 0 none
        (LTree.node LTree.nil 3 () 0 (some 2) LTree.nil)) ∧
      Consistent (remove (LTree.node (LTree.node LTree.nil (1 : Nat) () 0 (some 2) LTree.nil)
        2 () 0 none (LTree.node LTree.nil 3 () 0 (some 2) LTree.nil)) 2) :=
  ⟨⟨rfl, ⟨rfl, trivial, trivial⟩, ⟨rfl, trivial, trivial⟩⟩,
    ((parent_links_consistent
      (LTree.node (LTree.node LTree.nil (1 : Nat) () 0 (some 2) LTree.nil) 2 () 0 none
        (LTree.node LTree.nil 3 () 0 (some 2) LTree.nil))
      ⟨rfl, ⟨rfl, trivial, trivial⟩, ⟨rfl, trivial, trivial⟩⟩).2.1 2).1⟩

end Ordered
end Linked
end AVL
